import Mathlib

/-!
Shallow embedding of the custom memory allocator (src/allocator.c,
src/allocator.h) and verification of its specification claims.

The allocator keeps one global doubly-linked list of block headers.  We model
the chain as a Lean list in link order (g_head is the first element, g_tail the
last; prev/next pointers are the list structure).  A block header is modelled
by its address, name, size, free flag and region id; the fixed 100-byte header
(struct mem_block with padding) and the constants ALIGN_SIZE, BLOCK_ALIGN and
the 4096-byte page size of the reference platform are mirrored as constants.
size_t arithmetic is modelled as Nat with explicit reduction mod 2^64 exactly
where the C code can wrap (the subtraction in split_block and the fit
strategies, and the size computations in malloc/calloc); additions of block
sizes during coalescing stay within one mapped region and cannot reach 2^64,
so they are plain Nat additions.

Fallible OS calls are oracles: malloc takes the address mmap would return
(none = MAP_FAILED) and free/merge take a flag telling whether munmap
succeeds.  The set of currently mapped regions is tracked in the state so
that unmap behaviour is observable.
-/

namespace CustomAllocator

def W64 : Nat := 2 ^ 64

/-- sizeof(struct mem_block): 32 name + 8 size + 1 free + 8 region_id +
8 next + 8 prev + 35 padding = 100 bytes (the struct is packed). -/
def HEADER_SIZE : Nat := 100

def ALIGN_SIZE : Nat := 8

def BLOCK_ALIGN : Nat := 4

/-- getpagesize() on the reference platform. -/
def PAGE_SIZE : Nat := 4096

/-- size_t subtraction: a - b computed mod 2^64. -/
def sub64 (a b : Nat) : Nat := (W64 + a % W64 - b % W64) % W64

/-- One block header (struct mem_block), identified by the address it lives
at.  prev/next pointers are represented by the position in the state list. -/
structure MemBlock where
  addr : Nat
  name : String
  size : Nat
  free : Bool
  region_id : Nat
deriving Repr, DecidableEq

/-- The global allocator state: the doubly-linked list of blocks in link
order, the set of currently mapped regions (start address and length), and
the three global counters. -/
structure AllocState where
  blocks : List MemBlock
  mapped : List (Nat × Nat)
  g_allocations : Nat
  g_regions : Nat
  g_splits : Nat
deriving Repr, DecidableEq

def initState : AllocState := ⟨[], [], 0, 0, 0⟩

/-- Walk the chain looking for the header at address a, returning the blocks
before it (in reverse order, so the head of the first component is the prev
pointer), the block itself, and the blocks after it.  This models
dereferencing a block pointer in C: the zipper is the position of the block
in the chain. -/
def seek (acc : List MemBlock) (l : List MemBlock) (a : Nat) :
    Option (List MemBlock × MemBlock × List MemBlock) :=
  match l with
  | [] => none
  | b :: rest => if b.addr = a then some (acc, b, rest) else seek (b :: acc) rest a

/-- split_block(block, size): refuse if size is below header+BLOCK_ALIGN, the
block is not free, or the remainder (size_t subtraction block->size - size)
is below 104; otherwise shrink the block to size and link a new free block
carrying the remainder right after it (the two branches of the C code, tail
and non-tail, both amount to this insertion). -/
def split_block (st : AllocState) (a : Nat) (size : Nat) :
    AllocState × Option MemBlock :=
  match seek [] st.blocks a with
  | none => (st, none)
  | some (pre_rev, block, post) =>
    if size < HEADER_SIZE + BLOCK_ALIGN then (st, none)
    else if block.free = false then (st, none)
    else
      let rm_sz := sub64 block.size size
      if rm_sz < 104 then (st, none)
      else
        let new_block : MemBlock :=
          { addr := block.addr + size
            name := "Split block " ++ toString st.g_splits
            size := rm_sz
            free := true
            region_id := block.region_id }
        let block' := { block with size := size }
        ({ st with
            blocks := pre_rev.reverse ++ block' :: new_block :: post
            g_splits := st.g_splits + 1 }, some new_block)

/-- munmap(a, len): on success drop the region from the mapped set; on
failure perror is called (second component true) and the range stays
mapped. -/
def munmapStep (ok : Bool) (mapped : List (Nat × Nat)) (a len : Nat) :
    List (Nat × Nat) × Bool :=
  if ok then (mapped.filter (fun e => !(decide (e.1 = a) && decide (e.2 = len))), false)
  else (mapped, true)

/-- block->region_id != other->region_id, false when the pointer is NULL. -/
def diffRegion (b : MemBlock) : Option MemBlock → Bool
  | none => false
  | some x => x.region_id != b.region_id

def headAddr (l : List MemBlock) : Option Nat := l.head?.map MemBlock.addr

def lastAddr (l : List MemBlock) : Option Nat := l.getLast?.map MemBlock.addr

/-- The final cascade of merge_block for a block that is still linked in the
chain (its prev pointer is the head of pre_rev, its next pointer the head of
post).  Mirrors the four unmap branches of the C code: only block in memory;
both neighbours in different regions; tail with prev in a different region;
head with next in a different region.  In each branch the block is unlinked
(g_head/g_tail updated) before munmap is attempted, so on munmap failure the
block is gone from the chain but its memory stays mapped and NULL is
returned. -/
def phase3_inlist (munmapOk : Bool) (st : AllocState) (pre_rev : List MemBlock)
    (b : MemBlock) (post : List MemBlock) : AllocState × Option Nat × Bool :=
  if pre_rev.isEmpty && post.isEmpty then
    let m := munmapStep munmapOk st.mapped b.addr b.size
    ({ st with blocks := [], mapped := m.1 },
     if m.2 then none else some b.addr, m.2)
  else if diffRegion b post.head? && diffRegion b pre_rev.head? then
    let m := munmapStep munmapOk st.mapped b.addr b.size
    ({ st with blocks := pre_rev.reverse ++ post, mapped := m.1 },
     if m.2 then none else some b.addr, m.2)
  else if pre_rev.head?.isSome && post.isEmpty && diffRegion b pre_rev.head? then
    let m := munmapStep munmapOk st.mapped b.addr b.size
    ({ st with blocks := pre_rev.reverse ++ post, mapped := m.1 },
     if m.2 then none else some b.addr, m.2)
  else if post.head?.isSome && pre_rev.isEmpty && diffRegion b post.head? then
    let m := munmapStep munmapOk st.mapped b.addr b.size
    ({ st with blocks := pre_rev.reverse ++ post, mapped := m.1 },
     if m.2 then none else some b.addr, m.2)
  else
    ({ st with blocks := pre_rev.reverse ++ b :: post }, some b.addr, false)

/-- The final cascade of merge_block after the previous block has absorbed
this one.  The C code keeps using the just-unlinked header: in the tail case
it has prev = next = NULL, otherwise its stale prev (the absorbing block,
same region) and stale next survive.  Pointer identity against g_head/g_tail
is address identity.  All four branches are dead in well-formed states (the
stale prev shares the region, and the header address differs from every
linked header), so the chain surgery the stale pointers would perform is
rendered as leaving the already-assembled chain l2 unchanged. -/
def phase3_stale (munmapOk : Bool) (st : AllocState) (l2 : List MemBlock)
    (b : MemBlock) (stalePrev staleNext : Option MemBlock) :
    AllocState × Option Nat × Bool :=
  if (headAddr l2 == some b.addr) && (lastAddr l2 == some b.addr) then
    let m := munmapStep munmapOk st.mapped b.addr b.size
    ({ st with blocks := [], mapped := m.1 },
     if m.2 then none else some b.addr, m.2)
  else if diffRegion b staleNext && diffRegion b stalePrev then
    let m := munmapStep munmapOk st.mapped b.addr b.size
    ({ st with blocks := l2, mapped := m.1 },
     if m.2 then none else some b.addr, m.2)
  else if stalePrev.isSome && (lastAddr l2 == some b.addr) && diffRegion b stalePrev then
    let m := munmapStep munmapOk st.mapped b.addr b.size
    ({ st with blocks := l2, mapped := m.1 },
     if m.2 then none else some b.addr, m.2)
  else if staleNext.isSome && (headAddr l2 == some b.addr) && diffRegion b staleNext then
    let m := munmapStep munmapOk st.mapped b.addr b.size
    ({ st with blocks := l2, mapped := m.1 },
     if m.2 then none else some b.addr, m.2)
  else
    ({ st with blocks := l2 }, some b.addr, false)

/-- Body of merge_block given the position of the block in the chain.
Phase 1: if the next block is free and in the same region, absorb its size
and unlink it.  Phase 2: if the previous block is free and in the same
region, it absorbs this block, which is unlinked.  Then the unmap cascade
runs on the (possibly stale) header. -/
def merge_phase2 (munmapOk : Bool) (st : AllocState) (pre_rev : List MemBlock)
    (b1 : MemBlock) (post1 : List MemBlock) : AllocState × Option Nat × Bool :=
  match pre_rev with
  | prev :: pre' =>
    if prev.free && (prev.region_id == b1.region_id) then
      let prev1 := { prev with size := prev.size + b1.size }
      match post1 with
      | [] =>
        -- block was g_tail: g_tail = prev and block->prev = NULL,
        -- leaving the stale header with no neighbours
        phase3_stale munmapOk st (pre'.reverse ++ [prev1]) b1 none none
      | nxt :: rest =>
        phase3_stale munmapOk st (pre'.reverse ++ prev1 :: nxt :: rest) b1
          (some prev) (some nxt)
    else phase3_inlist munmapOk st (prev :: pre') b1 post1
  | [] => phase3_inlist munmapOk st [] b1 post1

def merge_ctx (munmapOk : Bool) (st : AllocState) (pre_rev : List MemBlock)
    (block : MemBlock) (post : List MemBlock) : AllocState × Option Nat × Bool :=
  let p1 : MemBlock × List MemBlock :=
    match post with
    | nxt :: post' =>
      if nxt.free && (nxt.region_id == block.region_id) then
        ({ block with size := block.size + nxt.size }, post')
      else (block, nxt :: post')
    | [] => (block, [])
  merge_phase2 munmapOk st pre_rev p1.1 p1.2

/-- merge_block(block): locate the header at address a and run the merge on
it.  Returns the new state, the returned pointer (none models returning
NULL after a failed munmap) and whether perror was invoked. -/
def merge_block (munmapOk : Bool) (st : AllocState) (a : Nat) :
    AllocState × Option Nat × Bool :=
  match seek [] st.blocks a with
  | none => (st, none, false)
  | some (pre_rev, b, post) => merge_ctx munmapOk st pre_rev b post

/-- free(ptr): NULL is a no-op; otherwise the header sits HEADER_SIZE bytes
before the data pointer, is marked free, and merge_block runs on it (the C
code passes the pointer it already holds, so no fresh search happens). -/
def free (munmapOk : Bool) (st : AllocState) (p : Nat) : AllocState :=
  let a := p - HEADER_SIZE
  match seek [] st.blocks a with
  | none => st
  | some (pre_rev, b, post) =>
    let b' := { b with free := true }
    let st' := { st with blocks := pre_rev.reverse ++ b' :: post }
    (merge_ctx munmapOk st' pre_rev b' post).1

/-- first_fit: first free block whose size is at least the requested total. -/
def first_fit (l : List MemBlock) (size : Nat) : Option MemBlock :=
  match l with
  | [] => none
  | c :: rest =>
    if decide (size ≤ c.size) && c.free then some c else first_fit rest size

def INT_MAX : Nat := 2147483647

def INT_MIN : Int := -2147483648

/-- ssize_t value of a size_t bit pattern. -/
def toSigned (n : Nat) : Int :=
  if n % W64 < 2 ^ 63 then ((n % W64 : Nat) : Int) else ((n % W64 : Nat) : Int) - (W64 : Int)

/-- best_fit loop.  In the C code diff is declared ssize_t, but the cast in
(ssize_t) current->size - size promotes back to size_t, and both the
comparison diff < best_size and the assignment best_size = diff are made at
type size_t, so the loop works on the size_t difference; best_size starts at
INT_MAX. -/
def best_fit_go (l : List MemBlock) (size : Nat) (best : Option MemBlock)
    (best_size : Nat) : Option MemBlock :=
  match l with
  | [] => best
  | c :: rest =>
    if decide (size ≤ c.size) && c.free then
      let diff := sub64 c.size size
      if diff < best_size then best_fit_go rest size (some c) diff
      else best_fit_go rest size best best_size
    else best_fit_go rest size best best_size

def best_fit (l : List MemBlock) (size : Nat) : Option MemBlock :=
  best_fit_go l size none INT_MAX

/-- worst_fit loop: diff and worst_size are compared as ssize_t, with
worst_size starting at INT_MIN. -/
def worst_fit_go (l : List MemBlock) (size : Nat) (worst : Option MemBlock)
    (worst_size : Int) : Option MemBlock :=
  match l with
  | [] => worst
  | c :: rest =>
    if decide (size ≤ c.size) && c.free then
      let diff := toSigned (sub64 c.size size)
      if worst_size < diff then worst_fit_go rest size (some c) diff
      else worst_fit_go rest size worst worst_size
    else worst_fit_go rest size worst worst_size

def worst_fit (l : List MemBlock) (size : Nat) : Option MemBlock :=
  worst_fit_go l size none INT_MIN

/-- The ALLOCATOR_ALGORITHM configuration value, a closed choice. -/
inductive Strategy
  | firstFit
  | bestFit
  | worstFit
deriving Repr, DecidableEq

/-- Configuration consumed by malloc: fit strategy and the
ALLOCATOR_SCRIBBLE debug-fill toggle. -/
structure Config where
  strategy : Strategy
  scribbles : Bool
deriving Repr, DecidableEq

def runFit : Strategy → List MemBlock → Nat → Option MemBlock
  | .firstFit, l, n => first_fit l n
  | .bestFit, l, n => best_fit l n
  | .worstFit, l, n => worst_fit l n

/-- reuse(size): run the configured fit strategy; on a hit, try to split the
candidate (the result of the split is discarded) and return the candidate. -/
def reuse (strat : Strategy) (st : AllocState) (size : Nat) :
    AllocState × Option Nat :=
  match runFit strat st.blocks size with
  | none => (st, none)
  | some b => ((split_block st b.addr size).1, some b.addr)

/-- Result of malloc: the new state, the data pointer handed to the caller
(header address + HEADER_SIZE; none = NULL), and how many 0xAA debug-fill
bytes were written into the data area. -/
structure MallocResult where
  state : AllocState
  ptr : Option Nat
  filled : Nat
deriving Repr, DecidableEq

/-- The header-inclusive, alignment-rounded request size computed at the top
of malloc: total = size + header (size_t addition), rounded up to the next
multiple of ALIGN_SIZE (size_t arithmetic). -/
def mallocAligned (size : Nat) : Nat :=
  let total_size := (size + HEADER_SIZE) % W64
  if total_size % ALIGN_SIZE ≠ 0 then
    (total_size + ALIGN_SIZE - total_size % ALIGN_SIZE) % W64
  else total_size

/-- The page rounding malloc performs before mapping a fresh region. -/
def regionSizeOf (aligned_size : Nat) : Nat :=
  let num_pages :=
    aligned_size / PAGE_SIZE + (if aligned_size % PAGE_SIZE ≠ 0 then 1 else 0)
  (num_pages * PAGE_SIZE) % W64

/-- malloc(size).  total = size + header, rounded up to ALIGN_SIZE (size_t
arithmetic).  First try reuse; the reused block is marked used.  Otherwise
round up to whole pages and map a fresh region (mmapAddr none = MAP_FAILED:
perror and return NULL with the state untouched), link it as the new tail,
split it down to the aligned size and mark it used. -/
def malloc (cfg : Config) (mmapAddr : Option Nat) (st : AllocState)
    (size : Nat) : MallocResult :=
  let aligned_size := mallocAligned size
  let r := reuse cfg.strategy st aligned_size
  match r.2 with
  | some baddr =>
    let st1 := r.1
    let st2 := { st1 with
      blocks := st1.blocks.map
        (fun b => if b.addr = baddr then { b with free := false } else b) }
    { state := st2, ptr := some (baddr + HEADER_SIZE),
      filled := if cfg.scribbles then size else 0 }
  | none =>
    let region_size := regionSizeOf aligned_size
    match mmapAddr with
    | none => { state := st, ptr := none, filled := 0 }
    | some a =>
      let newB : MemBlock :=
        { addr := a
          name := "Allocation " ++ toString st.g_allocations
          size := region_size
          free := true
          region_id := st.g_regions }
      let st1 := { st with
        blocks := st.blocks ++ [newB]
        mapped := st.mapped ++ [(a, region_size)]
        g_allocations := st.g_allocations + 1
        g_regions := st.g_regions + 1 }
      let st2 := (split_block st1 a aligned_size).1
      let st3 := { st2 with
        blocks := st2.blocks.map
          (fun b => if b.addr = a then { b with free := false } else b) }
      { state := st3, ptr := some (a + HEADER_SIZE),
        filled := if cfg.scribbles then size else 0 }

/-- malloc_name(size, name): malloc, then overwrite the name of the block
whose data pointer was returned. -/
def malloc_name (cfg : Config) (mmapAddr : Option Nat) (st : AllocState)
    (size : Nat) (name : String) : MallocResult :=
  let m := malloc cfg mmapAddr st size
  match m.ptr with
  | none => m
  | some p =>
    { m with state := { m.state with
        blocks := m.state.blocks.map
          (fun b => if b.addr = p - HEADER_SIZE then { b with name := name } else b) } }

/-- Result of calloc: either a completed call (with the number of bytes
zero-filled), or the write through a NULL pointer the C code performs when
malloc fails and nmemb * size is nonzero. -/
inductive CallocResult
  | ok (state : AllocState) (ptr : Option Nat) (zeroed : Nat)
  | nullWrite (state : AllocState)
deriving Repr, DecidableEq

/-- calloc(nmemb, size): malloc(nmemb * size) then memset the whole area to
zero.  The memset runs before any NULL check, so a failed malloc with a
nonzero byte count dereferences NULL. -/
def calloc (cfg : Config) (mmapAddr : Option Nat) (st : AllocState)
    (nmemb size : Nat) : CallocResult :=
  let n := (nmemb * size) % W64
  let m := malloc cfg mmapAddr st n
  match m.ptr with
  | some p => .ok m.state (some p) n
  | none => if n = 0 then .ok m.state none 0 else .nullWrite m.state

/-- Result of realloc: new state, returned pointer, the number of bytes
memcpy copied out of the old data area, and whether the memcpy wrote through
NULL (malloc failed). -/
structure ReallocResult where
  state : AllocState
  ret : Option Nat
  copied : Nat
  crashed : Bool
deriving Repr, DecidableEq

/-- realloc(ptr, size): NULL pointer = malloc; size 0 = free and return
NULL; otherwise malloc a new block and memcpy size bytes (the new size, not
the old one) from the old data area, without freeing the old block. -/
def realloc (cfg : Config) (mmapAddr : Option Nat) (munmapOk : Bool)
    (st : AllocState) (ptr : Option Nat) (size : Nat) : ReallocResult :=
  match ptr with
  | none =>
    let m := malloc cfg mmapAddr st size
    ⟨m.state, m.ptr, 0, false⟩
  | some p =>
    if size = 0 then ⟨free munmapOk st p, none, 0, false⟩
    else
      let m := malloc cfg mmapAddr st size
      match m.ptr with
      | none => ⟨m.state, none, 0, true⟩
      | some q => ⟨m.state, some q, size, false⟩

/-- One API call of a malloc/free trace, with its OS oracle values. -/
inductive Op
  | alloc (cfg : Config) (mmapAddr : Option Nat) (size : Nat)
  | rel (munmapOk : Bool) (ptr : Option Nat)
deriving Repr, DecidableEq

def step (st : AllocState) : Op → AllocState
  | .alloc cfg a size => (malloc cfg a st size).state
  | .rel ok p =>
    match p with
    | none => st
    | some p => free ok st p

def run (st : AllocState) (ops : List Op) : AllocState :=
  ops.foldl step st

/-- Environment sanity for one step: a request does not overflow the size_t
page rounding (size + 8300 within 2^64), and a fresh region, if one is
mapped, fits in the address space and lands beyond every block currently
tracked (mmap returning a lower address would make the unconditional
append at g_tail out of order, and overlapping an existing mapping is
impossible for real mmap). -/
def stepOk (st : AllocState) : Op → Bool
  | .alloc _ a size =>
    decide (size + 8300 ≤ W64) &&
      (match a with
       | none => true
       | some a =>
         st.blocks.all (fun b => decide (b.addr + b.size ≤ a)) &&
           decide (a + regionSizeOf (mallocAligned size) < W64))
  | .rel _ _ => true

def runOk (st : AllocState) : List Op → Bool
  | [] => true
  | op :: ops => stepOk st op && runOk (step st op) ops

/-! Well-formedness of the chain: block extents are disjoint and in address
order (the end of each block is at or before the start of every later one),
no two address-adjacent same-region blocks are both free, every block has a
positive size, and every region id is below the g_regions counter. -/

/-- The extent of x ends no later than y starts. -/
def blockR (x y : MemBlock) : Prop := x.addr + x.size ≤ y.addr

/-- If x and y are address-adjacent and share a region, they are not both
free. -/
def adjOk (x y : MemBlock) : Prop :=
  x.addr + x.size = y.addr → x.region_id = y.region_id →
    ¬(x.free = true ∧ y.free = true)

instance : DecidableRel blockR :=
  fun x y => inferInstanceAs (Decidable (x.addr + x.size ≤ y.addr))

instance : DecidableRel adjOk :=
  fun x y => inferInstanceAs (Decidable (x.addr + x.size = y.addr →
    x.region_id = y.region_id → ¬(x.free = true ∧ y.free = true)))

def WfL (l : List MemBlock) : Prop :=
  l.Pairwise blockR ∧ l.Pairwise adjOk ∧
    ∀ x ∈ l, 0 < x.size ∧ x.addr + x.size < W64

instance (l : List MemBlock) : Decidable (WfL l) :=
  inferInstanceAs (Decidable (_ ∧ _ ∧ _))

def Wf (st : AllocState) : Prop :=
  WfL st.blocks ∧ ∀ x ∈ st.blocks, x.region_id < st.g_regions

instance (st : AllocState) : Decidable (Wf st) :=
  inferInstanceAs (Decidable (_ ∧ _))

/-- Executable check that consecutive chain entries have strictly increasing
addresses. -/
def sortedByAddr : List MemBlock → Bool
  | [] => true
  | [_] => true
  | x :: y :: rest => decide (x.addr < y.addr) && sortedByAddr (y :: rest)

/-! A weaker well-formedness that does not constrain the relative placement
of distinct regions: region ids are non-decreasing along the chain (regions
are appended at the tail and only ever removed), consecutive same-region
blocks tile exactly, consecutive same-region blocks are never both free,
blocks of distinct regions occupy disjoint address ranges, and sizes are
positive with extents inside the address space.  It is maintained whatever
addresses the OS chooses for fresh regions, as long as they are disjoint
from the tracked blocks. -/

/-- Region ids appear in non-decreasing order along the chain. -/
def regionLe (x y : MemBlock) : Prop := x.region_id ≤ y.region_id

/-- Consecutive same-region blocks tile exactly: x ends where y starts. -/
def adjTile (x y : MemBlock) : Prop :=
  x.region_id = y.region_id → x.addr + x.size = y.addr

/-- Blocks of distinct regions occupy disjoint address ranges. -/
def exDisj (x y : MemBlock) : Prop :=
  x.region_id ≠ y.region_id →
    x.addr + x.size ≤ y.addr ∨ y.addr + y.size ≤ x.addr

def WfG (l : List MemBlock) : Prop :=
  l.Pairwise regionLe ∧ l.Chain' adjTile ∧ l.Chain' adjOk ∧
    l.Pairwise exDisj ∧ ∀ x ∈ l, 0 < x.size ∧ x.addr + x.size < W64

def WfSane (st : AllocState) : Prop :=
  WfG st.blocks ∧ ∀ x ∈ st.blocks, x.region_id < st.g_regions

/-- Pure mmap honesty for one step: the size_t page rounding does not
overflow, and a fresh region, if one is mapped, fits in the address space
and is disjoint from every tracked block (a real mmap cannot map over live
memory).  Unlike stepOk, no ordering between the fresh region and the
existing blocks is assumed: descending mmap addresses are allowed. -/
def stepSane (st : AllocState) : Op → Bool
  | .alloc _ a size =>
    decide (size + 8300 ≤ W64) &&
      (match a with
       | none => true
       | some a =>
         st.blocks.all (fun b =>
           decide (b.addr + b.size ≤ a) ||
             decide (a + regionSizeOf (mallocAligned size) ≤ b.addr)) &&
           decide (a + regionSizeOf (mallocAligned size) < W64))
  | .rel _ _ => true

def runSane (st : AllocState) : List Op → Bool
  | [] => true
  | op :: ops => stepSane st op && runSane (step st op) ops

/-! Concrete scenario states used by the claim theorems. -/

def cfgFF : Config := ⟨.firstFit, false⟩

def cfgWF : Config := ⟨.worstFit, false⟩

/-- First-fit scenario: allocate 40 (block A at 4096, data 4196), allocate
40 (block B at 4240, data 4340), release A. -/
def c9A : MallocResult := malloc cfgFF (some 4096) initState 40

def c9B : MallocResult := malloc cfgFF (some 99999999) c9A.state 40

def c9S : AllocState := free true c9B.state 4196

def c9C : MallocResult := malloc cfgFF (some 99999999) c9S 40

/-- Worst-fit scenario with a single free candidate: the second allocation
consumes the whole region residual, so after releasing A the only free
block is A. -/
def c9At : MallocResult := malloc cfgWF (some 4096) initState 40

def c9Bt : MallocResult := malloc cfgWF (some 99999999) c9At.state 3840

def c9St : AllocState := free true c9Bt.state 4196

def c9Ct : MallocResult := malloc cfgWF (some 99999999) c9St 40

/-- Two mallocs whose regions the OS maps at descending addresses. -/
def c1S2 : AllocState :=
  (malloc cfgFF (some 4096) (malloc cfgFF (some 65536) initState 4000).state 4000).state

/-- Two in-use blocks that exactly cover one mapped region. -/
def c3S : AllocState :=
  ⟨[⟨4096, "A", 4104, false, 0⟩, ⟨8200, "B", 4088, false, 0⟩],
   [(4096, 8192)], 2, 1, 0⟩

def c3AB : AllocState := free true (free true c3S 4196) 8300

def c3BA : AllocState := free true (free true c3S 8300) 4196

/-- A single fully-free block covering its whole mapped region. -/
def c7S : AllocState :=
  ⟨[⟨4096, "A", 4096, true, 0⟩], [(4096, 4096)], 1, 1, 0⟩

/-- A single in-use block (split_block must refuse it). -/
def c4S : AllocState :=
  ⟨[⟨4096, "W", 144, false, 0⟩], [(4096, 4096)], 1, 1, 0⟩

/-- A free block so large that its best-fit difference reaches INT_MAX. -/
def c6Block : MemBlock := ⟨4096, "big", 2147483751, true, 0⟩

def c5R : ReallocResult := realloc cfgFF (some 99999999) true c9A.state (some 4196) 200

/-- A concrete well-behaved operation sequence: two 40-byte allocations with
ascending region placement, then a release of the first. -/
def c1Ops : List Op :=
  [.alloc cfgFF (some 4096) 40, .alloc cfgFF (some 99999999) 40,
   .rel true (some 4196)]

/-- A concrete run whose second region is mapped BELOW the first (descending
mmap): two 4000-byte allocations at 65536 and 4096, then a release of the
first.  It violates the ordering condition of stepOk but satisfies
stepSane. -/
def c2Ops : List Op :=
  [.alloc cfgFF (some 65536) 4000, .alloc cfgFF (some 4096) 4000,
   .rel true (some 65636)]

/-- Two adjacent in-use blocks followed by an in-use same-region neighbour,
tiling one mapped region. -/
def c3A : MemBlock := ⟨4096, "A", 144, false, 0⟩

def c3B : MemBlock := ⟨4240, "B", 144, false, 0⟩

def c3N : MemBlock := ⟨4384, "N", 7904, false, 0⟩

def c3W : AllocState := ⟨[c3A, c3B, c3N], [(4096, 8192)], 3, 1, 0⟩

/-! Basic lemmas about the operations. -/

theorem split_block_none_state (st : AllocState) (a n : Nat)
    (h : (split_block st a n).2 = none) : (split_block st a n).1 = st := by
  unfold split_block at h ⊢
  cases hs : seek [] st.blocks a with
  | none => rfl
  | some trip =>
    obtain ⟨pre, b, post⟩ := trip
    rw [hs] at h
    by_cases h1 : n < HEADER_SIZE + BLOCK_ALIGN
    · simp [h1]
    · by_cases h2 : b.free = false
      · simp [h1, h2]
      · by_cases h3 : sub64 b.size n < 104
        · simp [h1, h2, h3]
        · simp [h1, h2, h3] at h

theorem malloc_mmap_fail_ptr_none (cfg : Config) (st : AllocState) (size : Nat)
    (h : (malloc cfg none st size).ptr = none) :
    (malloc cfg none st size).state = st := by
  unfold malloc at h ⊢
  cases hr : (reuse cfg.strategy st (mallocAligned size)).2 with
  | none => simp [hr]
  | some baddr => simp [hr] at h

theorem chain'_lt_iff_sortedByAddr (l : List MemBlock) :
    List.Chain' (fun x y => x.addr < y.addr) l ↔ sortedByAddr l = true := by
  induction l with
  | nil => simp [sortedByAddr]
  | cons x rest ih =>
    cases rest with
    | nil => simp [sortedByAddr]
    | cons y rest2 =>
      rw [List.chain'_cons, sortedByAddr]
      simp [ih]

/-- Claim C5 (code_bug): evaluation at the failing input.  After a 40 byte
allocation the block at 4096 has 144 total bytes, hence 44 usable bytes.
Resizing its data pointer 4196 to 200 bytes copies 200 bytes out of the
44-byte data area (an over-read), does not release the original block
(it stays in the list marked in use), and returns a different pointer;
the claimed behaviour is to copy min(44, 200) = 44 bytes and release the
original block. -/
theorem C5_realloc_defect :
    c5R.copied = 200 ∧
    (∀ b ∈ c9A.state.blocks, b.addr = 4096 → b.size = 144 ∧ b.free = false) ∧
    (∀ b ∈ c5R.state.blocks, b.addr = 4096 → b.free = false) ∧
    (∃ b ∈ c5R.state.blocks, b.addr = 4096) ∧
    c5R.ret = some 4340 ∧ c5R.crashed = false := by
  decide

/-- Claim C6 (code_bug): evaluation at the failing input.  best_fit starts
its running best at INT_MAX (not SIZE_MAX), so a free block whose
difference block.size - size reaches INT_MAX is never selected: with one
free block of 2147483751 bytes and a request of 104 bytes (difference
exactly INT_MAX), best_fit returns no candidate although the block
qualifies, contradicting the claim that it returns no candidate only when
no sufficiently large free block exists. -/
theorem C6_best_fit_defect :
    best_fit [c6Block] 104 = none ∧
    104 ≤ c6Block.size ∧ c6Block.free = true ∧
    sub64 c6Block.size 104 = INT_MAX := by
  refine ⟨?_, by decide, rfl, ?_⟩ <;> rfl

/-- Claim C8 (code_bug): evaluation at the failing input.  When mmap fails,
malloc and malloc_name return NULL and leave the state untouched (first
two conjuncts, plus the general lemma malloc_mmap_fail_ptr_none), but
calloc(1, 8) runs memset(NULL, 0, 8) because the memset precedes any NULL
check: the call dereferences NULL instead of returning NULL cleanly. -/
theorem C8_alloc_failure_defect :
    malloc cfgFF none initState 40 = ⟨initState, none, 0⟩ ∧
    malloc_name cfgFF none initState 40 "label" = ⟨initState, none, 0⟩ ∧
    calloc cfgFF none initState 1 8 = .nullWrite initState := by
  exact ⟨rfl, rfl, rfl⟩

/-- Claim C9 (confirmed): the concrete scenario.  Allocating 40 bytes gives
block A (data pointer 4196), allocating 40 more gives block B at the
higher data pointer 4340; after releasing A, a first-fit allocation of 40
bytes returns the pointer of A again.  In the worst-fit variant the second
allocation consumes the whole region residual, so after releasing A there
is exactly one free candidate, namely A, and the worst-fit allocation of
40 bytes also returns the pointer of A. -/
theorem C9_fit_scenario :
    (c9A.ptr = some 4196 ∧ c9B.ptr = some 4340 ∧ c9C.ptr = some 4196) ∧
    (c9At.ptr = some 4196 ∧
     (c9St.blocks.filter (fun b => b.free)).map (fun b => b.addr) = [4096] ∧
     c9Ct.ptr = some 4196) := by
  decide

/-- Claim C1 (corrected), counterexample: two 4000-byte allocations whose
regions the OS maps at addresses 65536 and then 4096.  The fresh region is
linked in unconditionally as the new tail, so the chain runs 65536, 69640,
4096, 8200: it is not address-ordered, and the head (65536) is not the
lowest-address block (4096 is in the list). -/
theorem C1_counterexample :
    ¬ List.Chain' (fun x y : MemBlock => x.addr < y.addr) c1S2.blocks ∧
    c1S2.blocks.map (fun b => b.addr) = [65536, 69640, 4096, 8200] ∧
    headAddr c1S2.blocks = some 65536 := by
  refine ⟨?_, by decide, by decide⟩
  rw [chain'_lt_iff_sortedByAddr]
  decide

/-- Claim C3 (corrected), counterexample: blocks A (4096, 4104 bytes) and B
(8200, 4088 bytes) are address-adjacent, share region 0, and exactly cover
the mapped region.  Releasing B then A merges into A and then unmaps the
whole region (no free block remains), while releasing A then B leaves one
mapped free block of 8192 bytes: the two orders do not commute and the
B-then-A order does not yield one free block of summed size. -/
theorem C3_counterexample :
    (c3BA.blocks = [] ∧ c3BA.mapped = []) ∧
    c3AB.blocks.map (fun b => (b.addr, b.size, b.free)) = [(4096, 8192, true)] ∧
    c3AB.mapped = [(4096, 8192)] := by
  decide

/-- Claim C7 (corrected), counterexample: a single fully-free block covering
its region.  merge_block with a failing munmap reports the failure
(perror) and leaves the region mapped, but the block has already been
unlinked (blocks is empty, g_head and g_tail were cleared before munmap
ran) and NULL is returned, so callers cannot continue to treat it as a
tracked free block. -/
theorem C7_counterexample :
    (merge_block false c7S 4096).1.blocks = [] ∧
    (merge_block false c7S 4096).1.mapped = [(4096, 4096)] ∧
    (merge_block false c7S 4096).2.1 = none ∧
    (merge_block false c7S 4096).2.2 = true := by
  decide

/-- Claim C10 (corrected), counterexample: in the first-fit state c9S the
freed 144-byte block A is first in the list; malloc(0) needs 104 aligned
bytes, picks A, and the split refuses (residual 40 < 104), so A is
consumed whole: the returned data pointer is 4196 but the carved block
keeps its 144-byte size instead of the claimed 104 bytes. -/
theorem C10_counterexample :
    (malloc cfgFF (some 99999999) c9S 0).ptr = some 4196 ∧
    (∀ b ∈ (malloc cfgFF (some 99999999) c9S 0).state.blocks,
      b.addr = 4096 → b.size = 144) ∧
    (144 : Nat) ≠ 104 := by
  decide

/-- Claim C10 (amended): malloc(0) is never rejected: whenever the OS
mapping (if one is even needed) succeeds, a non-NULL data pointer is
returned.  When the request is served from a fresh region the carved
block has header-inclusive size 104 (100-byte header rounded up to the
8-byte alignment, 4 usable bytes), and the configured debug fill writes
zero bytes; a smaller reusable candidate (104 to 207 bytes) may instead
be consumed whole at its original size. -/
theorem C10_malloc_zero (cfg : Config) (a : Nat) (st : AllocState) :
    (malloc cfg (some a) st 0).ptr.isSome = true ∧
    (malloc ⟨.firstFit, true⟩ (some 4096) initState 0).ptr = some 4196 ∧
    (malloc ⟨.firstFit, true⟩ (some 4096) initState 0).state.blocks.map
      (fun b => (b.addr, b.size, b.free)) = [(4096, 104, false), (4200, 3992, true)] ∧
    (malloc ⟨.firstFit, true⟩ (some 4096) initState 0).filled = 0 := by
  refine ⟨?_, by decide, by decide, by decide⟩
  unfold malloc
  cases hr : (reuse cfg.strategy st (mallocAligned 0)).2 with
  | none => simp [hr]
  | some baddr => simp [hr]

/-- Claim C4 (confirmed): the split contract.  If split_block returns NULL
the state (block and list) is unchanged; it does return NULL whenever the
addressed block is not free or the size_t residual block.size - size is
below the 104-byte threshold; any successful split yields a free residual
block of at least 104 bytes; and when the fit candidate chosen by reuse
cannot be split, reuse returns the candidate with the state unchanged, so
the candidate is consumed whole at its original size. -/
theorem C4_split_contract (st : AllocState) (a n : Nat) :
    ((split_block st a n).2 = none → (split_block st a n).1 = st) ∧
    (∀ pre b post, seek [] st.blocks a = some (pre, b, post) →
      (b.free = false → (split_block st a n).2 = none) ∧
      (sub64 b.size n < 104 → (split_block st a n).2 = none)) ∧
    (∀ nb, (split_block st a n).2 = some nb → nb.free = true ∧ 104 ≤ nb.size) ∧
    (∀ strat b, runFit strat st.blocks n = some b →
      (split_block st b.addr n).2 = none →
      reuse strat st n = (st, some b.addr)) := by
  refine ⟨split_block_none_state st a n, ?_, ?_, ?_⟩
  · intro pre b post hs
    constructor
    · intro hfree
      unfold split_block
      rw [hs]
      by_cases h1 : n < HEADER_SIZE + BLOCK_ALIGN
      · simp [h1]
      · simp [h1, hfree]
    · intro hrm
      unfold split_block
      rw [hs]
      by_cases h1 : n < HEADER_SIZE + BLOCK_ALIGN
      · simp [h1]
      · by_cases h2 : b.free = false
        · simp [h1, h2]
        · simp [h1, h2, hrm]
  · intro nb h
    unfold split_block at h
    cases hs : seek [] st.blocks a with
    | none => rw [hs] at h; simp at h
    | some trip =>
      obtain ⟨pre, b, post⟩ := trip
      rw [hs] at h
      by_cases h1 : n < HEADER_SIZE + BLOCK_ALIGN
      · simp [h1] at h
      · by_cases h2 : b.free = false
        · simp [h1, h2] at h
        · by_cases h3 : sub64 b.size n < 104
          · simp [h1, h2, h3] at h
          · simp [h1, h2, h3] at h
            constructor
            · rw [← h]
            · rw [← h]
              simpa using Nat.le_of_not_lt h3
  · intro strat b hfit hsplit
    unfold reuse
    rw [hfit]
    show ((split_block st b.addr n).1, some b.addr) = (st, some b.addr)
    rw [split_block_none_state st b.addr n hsplit]

/-- Claim C4, witness: split_block on the in-use 144-byte block of c4S with
target size 104 returns NULL and leaves the state unchanged, and reuse
under first fit leaves the state unchanged while returning no candidate
is not needed here: the candidate is the refusal case of the contract. -/
theorem C4_split_contract_witness :
    (split_block c4S 4096 104).2 = none ∧ (split_block c4S 4096 104).1 = c4S := by
  have h := C4_split_contract c4S 4096 104
  have hseek : seek [] c4S.blocks 4096 =
      some ([], ⟨4096, "W", 144, false, 0⟩, []) := rfl
  have hnone : (split_block c4S 4096 104).2 = none :=
    (h.2.1 [] ⟨4096, "W", 144, false, 0⟩ [] hseek).1 rfl
  exact ⟨hnone, h.1 hnone⟩

/-! Arithmetic facts about the size computations. -/

theorem W64_pos : 0 < W64 := by unfold W64; positivity

theorem sub64_eq_sub (a b : Nat) (hb : b ≤ a) (ha : a < W64) :
    sub64 a b = a - b := by
  unfold sub64
  rw [Nat.mod_eq_of_lt ha, Nat.mod_eq_of_lt (lt_of_le_of_lt hb ha)]
  have h1 : W64 + a - b = W64 + (a - b) := by omega
  rw [h1, Nat.add_mod_left]
  exact Nat.mod_eq_of_lt (by omega)

theorem mallocAligned_spec (size : Nat) (h : size + 8300 ≤ W64) :
    104 ≤ mallocAligned size ∧ mallocAligned size ≤ size + 107 := by
  have hW : W64 = 18446744073709551616 := by norm_num [W64]
  unfold mallocAligned HEADER_SIZE ALIGN_SIZE
  have h1 : (size + 100) % W64 = size + 100 := Nat.mod_eq_of_lt (by omega)
  rw [h1]
  by_cases h2 : (size + 100) % 8 ≠ 0
  · rw [if_pos h2, Nat.mod_eq_of_lt (by omega)]
    omega
  · rw [if_neg h2]
    omega

theorem regionSizeOf_spec (al : Nat) (h1 : 104 ≤ al) (h2 : al + 8192 ≤ W64) :
    al ≤ regionSizeOf al ∧ regionSizeOf al ≤ al + PAGE_SIZE ∧
      regionSizeOf al < W64 := by
  have hW : W64 = 18446744073709551616 := by norm_num [W64]
  unfold regionSizeOf PAGE_SIZE
  by_cases hr : al % 4096 ≠ 0
  · rw [if_pos hr, Nat.mod_eq_of_lt (by omega)]
    omega
  · rw [if_neg hr, Nat.mod_eq_of_lt (by omega)]
    omega

/-! Lemmas about seek: it walks to the first header carrying the target
address, and its zipper output reassembles to the input list. -/

theorem seek_app (a : Nat) (l1 : List MemBlock) (hne : ∀ x ∈ l1, x.addr ≠ a) :
    ∀ (acc rest : List MemBlock),
      seek acc (l1 ++ rest) a = seek (l1.reverse ++ acc) rest a := by
  induction l1 with
  | nil => intro acc rest; simp
  | cons c l1t ih =>
    intro acc rest
    have hc : c.addr ≠ a := hne c (by simp)
    rw [List.cons_append]
    simp only [seek]
    rw [if_neg hc]
    rw [ih (fun x hx => hne x (by simp [hx])) (c :: acc) rest]
    have hacc : (c :: l1t).reverse ++ acc = l1t.reverse ++ c :: acc := by simp
    rw [hacc]

theorem seek_hit (a : Nat) (acc : List MemBlock) (b : MemBlock)
    (post : List MemBlock) (hb : b.addr = a) :
    seek acc (b :: post) a = some (acc, b, post) := by
  unfold seek
  rw [if_pos hb]

theorem seek_found (a : Nat) (l1 post : List MemBlock) (b : MemBlock)
    (hne : ∀ x ∈ l1, x.addr ≠ a) (hb : b.addr = a) :
    seek [] (l1 ++ b :: post) a = some (l1.reverse, b, post) := by
  rw [seek_app a l1 hne [] (b :: post), seek_hit a _ b post hb]
  simp

theorem seek_some_spec (a : Nat) :
    ∀ (l acc : List MemBlock) {pre : List MemBlock} {b : MemBlock}
      {post : List MemBlock}, seek acc l a = some (pre, b, post) →
      ∃ l1, l = l1 ++ b :: post ∧ pre = l1.reverse ++ acc ∧ b.addr = a ∧
        ∀ x ∈ l1, x.addr ≠ a := by
  intro l
  induction l with
  | nil => intro acc pre b post h; simp [seek] at h
  | cons c rest ih =>
    intro acc pre b post h
    unfold seek at h
    by_cases hc : c.addr = a
    · rw [if_pos hc] at h
      simp only [Option.some.injEq, Prod.mk.injEq] at h
      obtain ⟨h1, h2, h3⟩ := h
      subst h2
      subst h3
      exact ⟨[], by simp, by simp [h1], hc, by simp⟩
    · rw [if_neg hc] at h
      obtain ⟨l1, hl, hp, hb, hx⟩ := ih (c :: acc) h
      refine ⟨c :: l1, by simp [hl], by simp [hp], hb, ?_⟩
      intro x hx2
      rcases List.mem_cons.mp hx2 with rfl | hx2
      · exact hc
      · exact hx x hx2

theorem seek_nil_spec {l : List MemBlock} {a : Nat} {pre : List MemBlock}
    {b : MemBlock} {post : List MemBlock}
    (h : seek [] l a = some (pre, b, post)) :
    l = pre.reverse ++ b :: post ∧ b.addr = a ∧ ∀ x ∈ pre, x.addr ≠ a := by
  obtain ⟨l1, h1, h2, h3, h4⟩ := seek_some_spec a l [] h
  have hl1 : l1 = pre.reverse := by rw [h2]; simp
  subst hl1
  refine ⟨by simpa using h1, h3, ?_⟩
  intro x hx
  exact h4 x (by simpa using List.mem_reverse.mpr hx)

/-! Pairwise utilities. -/

theorem pairwise_mid {R : MemBlock → MemBlock → Prop} {A C : List MemBlock}
    {m : MemBlock} :
    (A ++ m :: C).Pairwise R ↔
      A.Pairwise R ∧ C.Pairwise R ∧ (∀ a ∈ A, R a m) ∧ (∀ c ∈ C, R m c) ∧
      ∀ a ∈ A, ∀ c ∈ C, R a c := by
  rw [List.pairwise_append, List.pairwise_cons]
  constructor
  · rintro ⟨h1, ⟨h2, h3⟩, h4⟩
    exact ⟨h1, h3, fun a ha => h4 a ha m (by simp),
      h2, fun a ha c hc => h4 a ha c (by simp [hc])⟩
  · rintro ⟨h1, h2, h3, h4, h5⟩
    refine ⟨h1, ⟨h4, h2⟩, ?_⟩
    intro a ha x hx
    rcases List.mem_cons.mp hx with rfl | hx
    · exact h3 a ha
    · exact h5 a ha x hx

theorem map_id_on {α : Type} (l : List α) (f : α → α) (h : ∀ x ∈ l, f x = x) :
    l.map f = l := by
  induction l with
  | nil => rfl
  | cons c rest ih =>
    rw [List.map_cons, h c (by simp), ih (fun x hx => h x (by simp [hx]))]

theorem markUsed_decomp (l1 l2 : List MemBlock) (b : MemBlock) (a : Nat)
    (hb : b.addr = a) (h1 : ∀ x ∈ l1, x.addr ≠ a) (h2 : ∀ x ∈ l2, x.addr ≠ a) :
    (l1 ++ b :: l2).map
        (fun x => if x.addr = a then { x with free := false } else x) =
      l1 ++ { b with free := false } :: l2 := by
  rw [List.map_append, List.map_cons]
  rw [map_id_on l1 _ (fun x hx => by rw [if_neg (h1 x hx)])]
  rw [map_id_on l2 _ (fun x hx => by rw [if_neg (h2 x hx)])]
  rw [if_pos hb]

/-! Facts derived from well-formedness. -/

theorem WfL_lt {l : List MemBlock} (h : WfL l) :
    l.Pairwise (fun x y : MemBlock => x.addr < y.addr) := by
  refine h.1.imp_of_mem ?_
  intro x y hx _ hR
  have hp := (h.2.2 x hx).1
  change x.addr + x.size ≤ y.addr at hR
  omega

theorem wf_mem_decomp {l : List MemBlock}
    (hlt : l.Pairwise (fun x y : MemBlock => x.addr < y.addr))
    {b : MemBlock} (hb : b ∈ l) :
    ∃ l1 l2, l = l1 ++ b :: l2 ∧ (∀ x ∈ l1, x.addr ≠ b.addr) ∧
      ∀ x ∈ l2, x.addr ≠ b.addr := by
  obtain ⟨l1, l2, rfl⟩ := List.append_of_mem hb
  have hm := pairwise_mid.mp hlt
  refine ⟨l1, l2, rfl, ?_, ?_⟩
  · intro x hx
    have := hm.2.2.1 x hx
    omega
  · intro x hx
    have := hm.2.2.2.1 x hx
    omega

/-! Fit strategies return a free member block at least as large as the
request. -/

theorem first_fit_spec (n : Nat) :
    ∀ (l : List MemBlock) (b : MemBlock), first_fit l n = some b →
      b ∈ l ∧ n ≤ b.size ∧ b.free = true := by
  intro l
  induction l with
  | nil => intro b h; simp [first_fit] at h
  | cons c rest ih =>
    intro b h
    unfold first_fit at h
    by_cases hc : (decide (n ≤ c.size) && c.free) = true
    · rw [if_pos hc] at h
      obtain rfl := Option.some.inj h
      simp only [Bool.and_eq_true, decide_eq_true_eq] at hc
      exact ⟨by simp, hc.1, hc.2⟩
    · rw [if_neg hc] at h
      obtain ⟨hm, hrest⟩ := ih b h
      exact ⟨by simp [hm], hrest⟩

theorem best_fit_go_spec (n : Nat) :
    ∀ (l : List MemBlock) (best : Option MemBlock) (bs : Nat) (b : MemBlock),
      best_fit_go l n best bs = some b →
      (b ∈ l ∧ n ≤ b.size ∧ b.free = true) ∨ best = some b := by
  intro l
  induction l with
  | nil => intro best bs b h; right; exact h
  | cons c rest ih =>
    intro best bs b h
    unfold best_fit_go at h
    by_cases hc : (decide (n ≤ c.size) && c.free) = true
    · rw [if_pos hc] at h
      simp only [Bool.and_eq_true, decide_eq_true_eq] at hc
      by_cases hd : sub64 c.size n < bs
      · rw [if_pos hd] at h
        rcases ih (some c) _ b h with h1 | h2
        · exact Or.inl ⟨by simp [h1.1], h1.2⟩
        · obtain rfl := Option.some.inj h2
          exact Or.inl ⟨by simp, hc.1, hc.2⟩
      · rw [if_neg hd] at h
        rcases ih best bs b h with h1 | h2
        · exact Or.inl ⟨by simp [h1.1], h1.2⟩
        · exact Or.inr h2
    · rw [if_neg hc] at h
      rcases ih best bs b h with h1 | h2
      · exact Or.inl ⟨by simp [h1.1], h1.2⟩
      · exact Or.inr h2

theorem worst_fit_go_spec (n : Nat) :
    ∀ (l : List MemBlock) (worst : Option MemBlock) (ws : Int) (b : MemBlock),
      worst_fit_go l n worst ws = some b →
      (b ∈ l ∧ n ≤ b.size ∧ b.free = true) ∨ worst = some b := by
  intro l
  induction l with
  | nil => intro worst ws b h; right; exact h
  | cons c rest ih =>
    intro worst ws b h
    unfold worst_fit_go at h
    by_cases hc : (decide (n ≤ c.size) && c.free) = true
    · rw [if_pos hc] at h
      simp only [Bool.and_eq_true, decide_eq_true_eq] at hc
      by_cases hd : ws < toSigned (sub64 c.size n)
      · rw [if_pos hd] at h
        rcases ih (some c) _ b h with h1 | h2
        · exact Or.inl ⟨by simp [h1.1], h1.2⟩
        · obtain rfl := Option.some.inj h2
          exact Or.inl ⟨by simp, hc.1, hc.2⟩
      · rw [if_neg hd] at h
        rcases ih worst ws b h with h1 | h2
        · exact Or.inl ⟨by simp [h1.1], h1.2⟩
        · exact Or.inr h2
    · rw [if_neg hc] at h
      rcases ih worst ws b h with h1 | h2
      · exact Or.inl ⟨by simp [h1.1], h1.2⟩
      · exact Or.inr h2

theorem runFit_spec (strat : Strategy) (l : List MemBlock) (n : Nat)
    (b : MemBlock) (h : runFit strat l n = some b) :
    b ∈ l ∧ n ≤ b.size ∧ b.free = true := by
  cases strat with
  | firstFit => exact first_fit_spec n l b h
  | bestFit =>
    rcases best_fit_go_spec n l none INT_MAX b h with h1 | h2
    · exact h1
    · cases h2
  | worstFit =>
    rcases worst_fit_go_spec n l none INT_MIN b h with h1 | h2
    · exact h1
    · cases h2

/-! Preservation of well-formedness by the merge machinery.  The merge is
invoked by free on a block that has just been marked free, so the
adjacency invariant is assumed for all pairs not involving that block;
the phase-1/phase-2 conditions of the C code supply exactly the missing
facts about the pairs that do involve it. -/

theorem forall_mem_mid {Q : MemBlock → Prop} {l1 l2 : List MemBlock}
    {b : MemBlock} (h1 : ∀ x ∈ l1, Q x) (hb : Q b) (h2 : ∀ x ∈ l2, Q x) :
    ∀ x ∈ l1 ++ b :: l2, Q x := by
  intro x hx
  rcases List.mem_append.mp hx with hx | hx
  · exact h1 x hx
  · rcases List.mem_cons.mp hx with rfl | hx
    · exact hb
    · exact h2 x hx

theorem forall_mem_mid_dest {Q : MemBlock → Prop} {l1 l2 : List MemBlock}
    {b : MemBlock} (h : ∀ x ∈ l1 ++ b :: l2, Q x) :
    (∀ x ∈ l1, Q x) ∧ Q b ∧ ∀ x ∈ l2, Q x :=
  ⟨fun x hx => h x (by simp [hx]), h b (by simp),
   fun x hx => h x (by simp [hx])⟩

theorem phase3_inlist_preserves (mo : Bool) (st : AllocState)
    (pre_rev post1 : List MemBlock) (b1 : MemBlock) (P : Nat → Prop)
    (hchain : (pre_rev.reverse ++ b1 :: post1).Pairwise blockR)
    (hsz : ∀ x ∈ pre_rev.reverse ++ b1 :: post1, 0 < x.size ∧ x.addr + x.size < W64)
    (hadj : (pre_rev.reverse ++ post1).Pairwise adjOk)
    (hprevOK : ∀ p ∈ pre_rev.head?, p.addr + p.size = b1.addr →
      p.region_id = b1.region_id → p.free = false)
    (hheadOK : ∀ c ∈ post1.head?, b1.addr + b1.size = c.addr →
      b1.region_id = c.region_id → c.free = false)
    (hP : ∀ x ∈ pre_rev.reverse ++ b1 :: post1, P x.region_id) :
    WfL (phase3_inlist mo st pre_rev b1 post1).1.blocks ∧
      (∀ x ∈ (phase3_inlist mo st pre_rev b1 post1).1.blocks, P x.region_id) ∧
      (phase3_inlist mo st pre_rev b1 post1).1.g_regions = st.g_regions := by
  have hmid := pairwise_mid.mp hchain
  have hszd := forall_mem_mid_dest hsz
  have hPd := forall_mem_mid_dest hP
  have hrem : WfL (pre_rev.reverse ++ post1) := by
    refine ⟨?_, hadj, ?_⟩
    · rw [List.pairwise_append]
      refine ⟨hmid.1, hmid.2.1, ?_⟩
      intro a ha c hc
      have h1 := hmid.2.2.1 a ha
      have h2 := hmid.2.2.2.1 c hc
      change a.addr + a.size ≤ b1.addr at h1
      change b1.addr + b1.size ≤ c.addr at h2
      change a.addr + a.size ≤ c.addr
      omega
    · intro x hx
      rcases List.mem_append.mp hx with hx | hx
      · exact hszd.1 x hx
      · exact hszd.2.2 x hx
  have hremP : ∀ x ∈ pre_rev.reverse ++ post1, P x.region_id := by
    intro x hx
    rcases List.mem_append.mp hx with hx | hx
    · exact hPd.1 x hx
    · exact hPd.2.2 x hx
  have hkeep : WfL (pre_rev.reverse ++ b1 :: post1) := by
    refine ⟨hchain, ?_, hsz⟩
    rw [pairwise_mid]
    have ha0 := List.pairwise_append.mp hadj
    refine ⟨ha0.1, ha0.2.1, ?_, ?_, ha0.2.2⟩
    · intro a ha heq hreg
      cases hpr : pre_rev with
      | nil => rw [hpr] at ha; simp at ha
      | cons prev pret =>
        rw [hpr, List.reverse_cons] at ha
        rcases List.mem_append.mp ha with ha | ha
        · exfalso
          have h1 : blockR a prev := by
            have h2 := hmid.1
            rw [hpr, List.reverse_cons, List.pairwise_append] at h2
            exact h2.2.2 a ha prev (by simp)
          have h2 : blockR prev b1 := hmid.2.2.1 prev (by rw [hpr]; simp)
          have h3 := (hszd.1 prev (by rw [hpr]; simp)).1
          change a.addr + a.size ≤ prev.addr at h1
          change prev.addr + prev.size ≤ b1.addr at h2
          omega
        · simp only [List.mem_singleton] at ha
          subst ha
          have hpf := hprevOK a (by rw [hpr]; rfl) heq hreg
          intro hf
          rw [hpf] at hf
          exact Bool.false_ne_true hf.1
    · intro c hc heq hreg
      cases hps : post1 with
      | nil => rw [hps] at hc; simp at hc
      | cons nxt rest =>
        rw [hps] at hc
        rcases List.mem_cons.mp hc with rfl | hc
        · have hcf := hheadOK c (by rw [hps]; rfl) heq hreg
          intro hf
          rw [hcf] at hf
          exact Bool.false_ne_true hf.2
        · exfalso
          have h1 : blockR b1 nxt := hmid.2.2.2.1 nxt (by rw [hps]; simp)
          have h2 : blockR nxt c := by
            have h3 := hmid.2.1
            rw [hps, List.pairwise_cons] at h3
            exact h3.1 c hc
          have h3 := (hszd.2.2 nxt (by rw [hps]; simp)).1
          change b1.addr + b1.size ≤ nxt.addr at h1
          change nxt.addr + nxt.size ≤ c.addr at h2
          omega
  unfold phase3_inlist
  split_ifs with h1 h2 h3 h4
  · exact ⟨⟨by simp, by simp, by simp⟩, by simp, rfl⟩
  · exact ⟨hrem, hremP, rfl⟩
  · exact ⟨hrem, hremP, rfl⟩
  · exact ⟨hrem, hremP, rfl⟩
  · exact ⟨hkeep, hP, rfl⟩

theorem phase3_stale_preserves (mo : Bool) (st : AllocState) (l2 : List MemBlock)
    (b : MemBlock) (sp sn : Option MemBlock) (P : Nat → Prop)
    (hwfl : WfL l2) (hP : ∀ x ∈ l2, P x.region_id) :
    WfL (phase3_stale mo st l2 b sp sn).1.blocks ∧
      (∀ x ∈ (phase3_stale mo st l2 b sp sn).1.blocks, P x.region_id) ∧
      (phase3_stale mo st l2 b sp sn).1.g_regions = st.g_regions := by
  unfold phase3_stale
  split_ifs with h1 h2 h3 h4
  · exact ⟨⟨by simp, by simp, by simp⟩, by simp, rfl⟩
  · exact ⟨hwfl, hP, rfl⟩
  · exact ⟨hwfl, hP, rfl⟩
  · exact ⟨hwfl, hP, rfl⟩
  · exact ⟨hwfl, hP, rfl⟩

/-- When a free same-region previous block absorbs the block being merged,
the resulting chain is well formed: the enlarged block ends exactly where
the absorbed block ended, and the head of the tail segment cannot be an
adjacent same-region free block (hheadOK). -/
theorem absorb_left_wf (A post1 : List MemBlock) (prev b1 : MemBlock)
    (hchain : (A ++ prev :: b1 :: post1).Pairwise blockR)
    (hsz : ∀ x ∈ A ++ prev :: b1 :: post1, 0 < x.size ∧ x.addr + x.size < W64)
    (hadj : (A ++ prev :: post1).Pairwise adjOk)
    (hpr : prev.region_id = b1.region_id)
    (hheadOK : ∀ c ∈ post1.head?, b1.addr + b1.size = c.addr →
      b1.region_id = c.region_id → c.free = false) :
    WfL (A ++ { prev with size := prev.size + b1.size } :: post1) := by
  have hm1 := pairwise_mid.mp hchain
  have hc1 := List.pairwise_cons.mp hm1.2.1
  have hprevb1 : prev.addr + prev.size ≤ b1.addr := hm1.2.2.2.1 b1 (by simp)
  have hszd := forall_mem_mid_dest hsz
  have hszb1 := hszd.2.2 b1 (by simp)
  have hadjm := pairwise_mid.mp hadj
  refine ⟨?_, ?_, ?_⟩
  · rw [pairwise_mid]
    refine ⟨hm1.1, hc1.2, ?_, ?_, ?_⟩
    · intro a ha
      exact hm1.2.2.1 a ha
    · intro c hc
      have hb1c : b1.addr + b1.size ≤ c.addr := hc1.1 c hc
      change prev.addr + (prev.size + b1.size) ≤ c.addr
      omega
    · intro a ha c hc
      exact hm1.2.2.2.2 a ha c (by simp [hc])
  · rw [pairwise_mid]
    refine ⟨hadjm.1, hadjm.2.1, ?_, ?_, hadjm.2.2.2.2⟩
    · intro a ha
      exact hadjm.2.2.1 a ha
    · intro c hc heq hreg
      cases hps : post1 with
      | nil => rw [hps] at hc; simp at hc
      | cons nxt rest =>
        rw [hps] at hc
        change prev.addr + (prev.size + b1.size) = c.addr at heq
        rcases List.mem_cons.mp hc with rfl | hc
        · have hb1c : b1.addr + b1.size ≤ c.addr := hc1.1 c (by rw [hps]; simp)
          have heq2 : b1.addr + b1.size = c.addr := by omega
          have hreg2 : b1.region_id = c.region_id := by
            change prev.region_id = c.region_id at hreg
            rw [← hpr]
            exact hreg
          have hcf := hheadOK c (by rw [hps]; rfl) heq2 hreg2
          intro hf
          rw [hcf] at hf
          exact Bool.false_ne_true hf.2
        · exfalso
          have h1 : b1.addr + b1.size ≤ nxt.addr := hc1.1 nxt (by rw [hps]; simp)
          have h2 : blockR nxt c := by
            have h3 := hc1.2
            rw [hps, List.pairwise_cons] at h3
            exact h3.1 c hc
          have h3 := (hszd.2.2 nxt (by rw [hps]; simp)).1
          change nxt.addr + nxt.size ≤ c.addr at h2
          omega
  · refine forall_mem_mid hszd.1 ?_ ?_
    · constructor
      · have := hszd.2.1.1
        simp only []
        omega
      · show prev.addr + (prev.size + b1.size) < W64
        omega
    · intro x hx
      exact hszd.2.2 x (by simp [hx])

/-- Absorbing the next block (phase 1) preserves the chain ordering and the
size bounds. -/
theorem absorb_right_chain (A C : List MemBlock) (x y : MemBlock)
    (hchain : (A ++ x :: y :: C).Pairwise blockR) :
    (A ++ { x with size := x.size + y.size } :: C).Pairwise blockR := by
  have hm1 := pairwise_mid.mp hchain
  have hc1 := List.pairwise_cons.mp hm1.2.1
  have hxy : x.addr + x.size ≤ y.addr := hm1.2.2.2.1 y (by simp)
  rw [pairwise_mid]
  refine ⟨hm1.1, hc1.2, ?_, ?_, ?_⟩
  · intro a ha
    exact hm1.2.2.1 a ha
  · intro c hc
    have hyc : y.addr + y.size ≤ c.addr := hc1.1 c hc
    change x.addr + (x.size + y.size) ≤ c.addr
    omega
  · intro a ha c hc
    exact hm1.2.2.2.2 a ha c (by simp [hc])

theorem absorb_right_sz (A C : List MemBlock) (x y : MemBlock)
    (hchain : (A ++ x :: y :: C).Pairwise blockR)
    (hsz : ∀ z ∈ A ++ x :: y :: C, 0 < z.size ∧ z.addr + z.size < W64) :
    ∀ z ∈ A ++ { x with size := x.size + y.size } :: C,
      0 < z.size ∧ z.addr + z.size < W64 := by
  have hm1 := pairwise_mid.mp hchain
  have hxy : x.addr + x.size ≤ y.addr := hm1.2.2.2.1 y (by simp)
  have hszd := forall_mem_mid_dest hsz
  have hszy := hszd.2.2 y (by simp)
  refine forall_mem_mid hszd.1 ?_ ?_
  · constructor
    · have := hszd.2.1.1
      simp only []
      omega
    · show x.addr + (x.size + y.size) < W64
      omega
  · intro z hz
    exact hszd.2.2 z (by simp [hz])

theorem merge_phase2_preserves (mo : Bool) (st : AllocState)
    (pre_rev post1 : List MemBlock) (b1 : MemBlock) (P : Nat → Prop)
    (hchain : (pre_rev.reverse ++ b1 :: post1).Pairwise blockR)
    (hsz : ∀ x ∈ pre_rev.reverse ++ b1 :: post1, 0 < x.size ∧ x.addr + x.size < W64)
    (hadj : (pre_rev.reverse ++ post1).Pairwise adjOk)
    (hheadOK : ∀ c ∈ post1.head?, b1.addr + b1.size = c.addr →
      b1.region_id = c.region_id → c.free = false)
    (hP : ∀ x ∈ pre_rev.reverse ++ b1 :: post1, P x.region_id) :
    WfL (merge_phase2 mo st pre_rev b1 post1).1.blocks ∧
      (∀ x ∈ (merge_phase2 mo st pre_rev b1 post1).1.blocks, P x.region_id) ∧
      (merge_phase2 mo st pre_rev b1 post1).1.g_regions = st.g_regions := by
  cases hpr : pre_rev with
  | nil =>
    rw [hpr] at hchain hsz hadj hP
    simp only [merge_phase2]
    exact phase3_inlist_preserves mo st [] post1 b1 P hchain hsz hadj
      (by intro p hp; simp at hp) hheadOK hP
  | cons prev pret =>
    rw [hpr] at hchain hsz hadj hP
    have hrw : ∀ X : List MemBlock,
        (prev :: pret).reverse ++ X = pret.reverse ++ prev :: X := by
      intro X; simp
    rw [hrw] at hchain hsz hadj hP
    simp only [merge_phase2]
    by_cases hcond : (prev.free && (prev.region_id == b1.region_id)) = true
    · rw [if_pos hcond]
      simp only [Bool.and_eq_true, beq_iff_eq] at hcond
      have hwfl2 := absorb_left_wf pret.reverse post1 prev b1 hchain hsz hadj
        hcond.2 hheadOK
      have hPout : ∀ x ∈ pret.reverse ++
          { prev with size := prev.size + b1.size } :: post1, P x.region_id := by
        refine forall_mem_mid (fun x hx => hP x (by simp [hx])) ?_
          (fun x hx => hP x (by simp [hx]))
        exact hP prev (by simp)
      cases hps : post1 with
      | nil =>
        rw [hps] at hwfl2 hPout
        exact phase3_stale_preserves mo st _ b1 none none P hwfl2 hPout
      | cons nxt rest =>
        rw [hps] at hwfl2 hPout
        exact phase3_stale_preserves mo st _ b1 (some prev) (some nxt) P hwfl2 hPout
    · rw [if_neg hcond]
      have hprevOK : ∀ p ∈ (prev :: pret).head?, p.addr + p.size = b1.addr →
          p.region_id = b1.region_id → p.free = false := by
        intro p hp heq hreg
        have hpp : prev = p := by simpa using hp
        cases hft : p.free
        · rfl
        · exfalso
          apply hcond
          rw [hpp, hft, hreg]
          simp
      exact phase3_inlist_preserves mo st (prev :: pret) post1 b1 P
        (by rw [hrw]; exact hchain) (by rw [hrw]; exact hsz)
        (by rw [hrw]; exact hadj) hprevOK hheadOK (by rw [hrw]; exact hP)

theorem merge_ctx_preserves (mo : Bool) (st : AllocState)
    (pre_rev post : List MemBlock) (b : MemBlock) (P : Nat → Prop)
    (hchain : (pre_rev.reverse ++ b :: post).Pairwise blockR)
    (hsz : ∀ x ∈ pre_rev.reverse ++ b :: post, 0 < x.size ∧ x.addr + x.size < W64)
    (hadj : (pre_rev.reverse ++ post).Pairwise adjOk)
    (hP : ∀ x ∈ pre_rev.reverse ++ b :: post, P x.region_id) :
    WfL (merge_ctx mo st pre_rev b post).1.blocks ∧
      (∀ x ∈ (merge_ctx mo st pre_rev b post).1.blocks, P x.region_id) ∧
      (merge_ctx mo st pre_rev b post).1.g_regions = st.g_regions := by
  cases hps : post with
  | nil =>
    rw [hps] at hchain hsz hadj hP
    simp only [merge_ctx]
    exact merge_phase2_preserves mo st pre_rev [] b P hchain hsz hadj
      (by intro c hc; simp at hc) hP
  | cons nxt post2 =>
    rw [hps] at hchain hsz hadj hP
    simp only [merge_ctx]
    by_cases habs : (nxt.free && (nxt.region_id == b.region_id)) = true
    · rw [if_pos habs]
      simp only [Bool.and_eq_true, beq_iff_eq] at habs
      have hadjm := pairwise_mid.mp hadj
      have hmid := pairwise_mid.mp hchain
      have hnpost := List.pairwise_cons.mp hmid.2.1
      have hbn : b.addr + b.size ≤ nxt.addr := hmid.2.2.2.1 nxt (by simp)
      have hszd := forall_mem_mid_dest hsz
      have hchain2 := absorb_right_chain pre_rev.reverse post2 b nxt hchain
      have hsz2 := absorb_right_sz pre_rev.reverse post2 b nxt hchain hsz
      have hadj2 : (pre_rev.reverse ++ post2).Pairwise adjOk := by
        have hsub : (pre_rev.reverse ++ post2).Sublist
            (pre_rev.reverse ++ nxt :: post2) := by
          apply List.Sublist.append_left
          exact List.sublist_cons_self nxt post2
        exact hadj.sublist hsub
      have hheadOK2 : ∀ c ∈ post2.head?,
          ({ b with size := b.size + nxt.size } : MemBlock).addr +
            ({ b with size := b.size + nxt.size } : MemBlock).size = c.addr →
          ({ b with size := b.size + nxt.size } : MemBlock).region_id = c.region_id →
          c.free = false := by
        intro c hc heq hreg
        have hcmem : c ∈ post2 := List.mem_of_mem_head? hc
        change b.addr + (b.size + nxt.size) = c.addr at heq
        change b.region_id = c.region_id at hreg
        have hnc : nxt.addr + nxt.size ≤ c.addr := by
          have h3 := List.pairwise_cons.mp hmid.2.1
          exact h3.1 c hcmem
        have heqnc : nxt.addr + nxt.size = c.addr := by omega
        have hregnc : nxt.region_id = c.region_id := by rw [habs.2]; exact hreg
        have hOK : adjOk nxt c := hadjm.2.2.2.1 c hcmem
        have hncf := hOK heqnc hregnc
        cases hcf : c.free
        · rfl
        · exfalso
          exact hncf ⟨habs.1, hcf⟩
      have hP2 : ∀ x ∈ pre_rev.reverse ++
          { b with size := b.size + nxt.size } :: post2, P x.region_id := by
        refine forall_mem_mid (fun x hx => hP x (by simp [hx])) ?_
          (fun x hx => hP x (by simp [hx]))
        exact hP b (by simp)
      exact merge_phase2_preserves mo st pre_rev post2
        { b with size := b.size + nxt.size } P hchain2 hsz2 hadj2 hheadOK2 hP2
    · rw [if_neg habs]
      have hheadOK : ∀ c ∈ (nxt :: post2).head?, b.addr + b.size = c.addr →
          b.region_id = c.region_id → c.free = false := by
        intro c hc heq hreg
        have hcc : nxt = c := by simpa using hc
        cases hcf : c.free
        · rfl
        · exfalso
          apply habs
          rw [hcc, hcf]
          have hr2 : c.region_id = b.region_id := hcc ▸ hreg.symm
          rw [hr2]
          simp
      exact merge_phase2_preserves mo st pre_rev (nxt :: post2) b P hchain hsz
        hadj hheadOK hP

/-- free preserves well-formedness: marking the located block free keeps the
chain and sizes intact, drops only the adjacency pairs involving that
block, and the merge restores them. -/
theorem free_preserves (mo : Bool) (st : AllocState) (p : Nat) (hwf : Wf st) :
    Wf (free mo st p) := by
  simp only [free]
  cases hs : seek [] st.blocks (p - HEADER_SIZE) with
  | none => exact hwf
  | some trip =>
    obtain ⟨pre, b, post⟩ := trip
    obtain ⟨hl, hba, hne⟩ := seek_nil_spec hs
    obtain ⟨⟨hchain, hadj, hszl⟩, hregb⟩ := hwf
    rw [hl] at hchain hadj hszl hregb
    have hchain2 : (pre.reverse ++
        ({ b with free := true } : MemBlock) :: post).Pairwise blockR := by
      rw [pairwise_mid] at hchain ⊢
      exact hchain
    have hszd := forall_mem_mid_dest hszl
    have hsz2 : ∀ x ∈ pre.reverse ++ ({ b with free := true } : MemBlock) :: post,
        0 < x.size ∧ x.addr + x.size < W64 :=
      forall_mem_mid hszd.1 hszd.2.1 hszd.2.2
    have hadj2 : (pre.reverse ++ post).Pairwise adjOk := by
      have hsub : (pre.reverse ++ post).Sublist (pre.reverse ++ b :: post) := by
        apply List.Sublist.append_left
        exact List.sublist_cons_self b post
      exact hadj.sublist hsub
    have hregd := forall_mem_mid_dest hregb
    have hP2 : ∀ x ∈ pre.reverse ++ ({ b with free := true } : MemBlock) :: post,
        x.region_id < st.g_regions :=
      forall_mem_mid hregd.1 hregd.2.1 hregd.2.2
    have hres := merge_ctx_preserves mo
      { st with blocks := pre.reverse ++ ({ b with free := true } : MemBlock) :: post }
      pre post ({ b with free := true } : MemBlock) (fun r => r < st.g_regions)
      hchain2 hsz2 hadj2 hP2
    refine ⟨hres.1, ?_⟩
    intro x hx
    have hx2 := hres.2.1 x hx
    rw [hres.2.2]
    exact hx2

/-- Marking a block in use preserves well-formedness (the adjacency
predicate only constrains pairs of free blocks). -/
theorem WfL_mark_mid (l1 l2 : List MemBlock) (b : MemBlock)
    (h : WfL (l1 ++ b :: l2)) :
    WfL (l1 ++ ({ b with free := false } : MemBlock) :: l2) := by
  obtain ⟨hc, ha, hs⟩ := h
  refine ⟨?_, ?_, ?_⟩
  · rw [pairwise_mid] at hc ⊢
    exact hc
  · rw [pairwise_mid] at ha ⊢
    refine ⟨ha.1, ha.2.1, ?_, ?_, ha.2.2.2.2⟩
    · intro a haa heq hreg hff
      exact Bool.false_ne_true hff.2
    · intro c hcc heq hreg hff
      exact Bool.false_ne_true hff.1
  · have hd := forall_mem_mid_dest hs
    exact forall_mem_mid hd.1 hd.2.1 hd.2.2

/-- The list shape left by a successful split followed by marking the first
piece in use is well formed. -/
theorem WfL_split_mark (l1 l2 : List MemBlock) (b nb : MemBlock) (n : Nat)
    (h : WfL (l1 ++ b :: l2)) (hbf : b.free = true) (hn : 0 < n)
    (hle : n ≤ b.size) (hnba : nb.addr = b.addr + n) (hnbs : nb.size = b.size - n)
    (hnbr : nb.region_id = b.region_id) (hnbf : nb.free = true)
    (hrm : 0 < b.size - n) :
    WfL (l1 ++ ({ b with size := n, free := false } : MemBlock) :: nb :: l2) := by
  obtain ⟨hc, ha, hs⟩ := h
  have hcm := pairwise_mid.mp hc
  have ham := pairwise_mid.mp ha
  have hsd := forall_mem_mid_dest hs
  refine ⟨?_, ?_, ?_⟩
  · rw [pairwise_mid]
    refine ⟨hcm.1, ?_, ?_, ?_, ?_⟩
    · rw [List.pairwise_cons]
      constructor
      · intro c hcc
        have h1 := hcm.2.2.2.1 c hcc
        change b.addr + b.size ≤ c.addr at h1
        change nb.addr + nb.size ≤ c.addr
        omega
      · exact hcm.2.1
    · intro a haa
      have h1 := hcm.2.2.1 a haa
      change a.addr + a.size ≤ b.addr at h1
      change a.addr + a.size ≤ b.addr
      exact h1
    · intro y hy
      rcases List.mem_cons.mp hy with rfl | hy
      · change b.addr + n ≤ y.addr
        omega
      · have h1 := hcm.2.2.2.1 y hy
        change b.addr + b.size ≤ y.addr at h1
        change b.addr + n ≤ y.addr
        omega
    · intro a haa y hy
      rcases List.mem_cons.mp hy with rfl | hy
      · have h1 := hcm.2.2.1 a haa
        change a.addr + a.size ≤ b.addr at h1
        change a.addr + a.size ≤ y.addr
        omega
      · exact hcm.2.2.2.2 a haa y hy
  · rw [pairwise_mid]
    refine ⟨ham.1, ?_, ?_, ?_, ?_⟩
    · rw [List.pairwise_cons]
      constructor
      · intro c hcc heq hreg hff
        have h1 := ham.2.2.2.1 c hcc
        have heq2 : b.addr + b.size = c.addr := by
          change nb.addr + nb.size = c.addr at heq
          omega
        have hreg2 : b.region_id = c.region_id := by
          rw [← hnbr]
          exact hreg
        exact h1 heq2 hreg2 ⟨hbf, hff.2⟩
      · exact ham.2.1
    · intro a haa heq hreg hff
      exact Bool.false_ne_true hff.2
    · intro y hy heq hreg hff
      exact Bool.false_ne_true hff.1
    · intro a haa y hy
      rcases List.mem_cons.mp hy with rfl | hy
      · intro heq hreg hff
        have h1 := hcm.2.2.1 a haa
        change a.addr + a.size ≤ b.addr at h1
        rw [hnba] at heq
        omega
      · exact ham.2.2.2.2 a haa y hy
  · refine forall_mem_mid hsd.1 ?_ ?_
    · have h1 := hsd.2.1
      constructor
      · simpa using hn
      · show b.addr + n < W64
        omega
    · intro y hy
      rcases List.mem_cons.mp hy with rfl | hy
      · constructor
        · omega
        · rw [hnba, hnbs]
          have h1 := hsd.2.1
          omega
      · exact hsd.2.2 y hy

/-- When the residual would be large enough and the block is free, the
split really happens, producing the shrunk block followed by the fresh
residual header. -/
theorem split_block_run (st : AllocState) (l1 l2 : List MemBlock)
    (b : MemBlock) (n : Nat) (hblocks : st.blocks = l1 ++ b :: l2)
    (hne : ∀ x ∈ l1, x.addr ≠ b.addr)
    (h104 : ¬ n < HEADER_SIZE + BLOCK_ALIGN) (hbf : b.free = true)
    (hrm : ¬ sub64 b.size n < 104) :
    (split_block st b.addr n).1 = { st with
      blocks := l1 ++ ({ b with size := n } : MemBlock) ::
        ({ addr := b.addr + n, name := "Split block " ++ toString st.g_splits,
           size := sub64 b.size n, free := true,
           region_id := b.region_id } : MemBlock) :: l2,
      g_splits := st.g_splits + 1 } := by
  have hseek : seek [] st.blocks b.addr = some (l1.reverse, b, l2) := by
    rw [hblocks]
    exact seek_found b.addr l1 l2 b hne rfl
  have hbf2 : ¬ b.free = false := by rw [hbf]; simp
  unfold split_block
  rw [hseek]
  simp only [if_neg h104, if_neg hbf2, if_neg hrm, List.reverse_reverse]

/-- A residual below the threshold makes split_block return NULL. -/
theorem split_block_rm_none (st : AllocState) (l1 l2 : List MemBlock)
    (b : MemBlock) (n : Nat) (hblocks : st.blocks = l1 ++ b :: l2)
    (hne : ∀ x ∈ l1, x.addr ≠ b.addr) (hrm : sub64 b.size n < 104) :
    (split_block st b.addr n).2 = none := by
  have hseek : seek [] st.blocks b.addr = some (l1.reverse, b, l2) := by
    rw [hblocks]
    exact seek_found b.addr l1 l2 b hne rfl
  unfold split_block
  rw [hseek]
  by_cases h1 : n < HEADER_SIZE + BLOCK_ALIGN
  · simp [h1]
  · by_cases h2 : b.free = false
    · simp [h1, h2]
    · simp [h1, h2, hrm]

/-- malloc preserves well-formedness, provided the request size stays within
the size arithmetic bounds and any fresh region lands beyond the tracked
blocks and inside the address space. -/
theorem malloc_preserves (cfg : Config) (mmapAddr : Option Nat)
    (st : AllocState) (size : Nat) (hwf : Wf st) (hsz : size + 8300 ≤ W64)
    (hmm : ∀ a, mmapAddr = some a → (∀ x ∈ st.blocks, x.addr + x.size ≤ a) ∧
      a + regionSizeOf (mallocAligned size) < W64) :
    Wf (malloc cfg mmapAddr st size).state := by
  obtain ⟨hal1, hal2⟩ := mallocAligned_spec size hsz
  have h104 : ¬ mallocAligned size < HEADER_SIZE + BLOCK_ALIGN := by
    unfold HEADER_SIZE BLOCK_ALIGN
    omega
  cases hf : runFit cfg.strategy st.blocks (mallocAligned size) with
  | some bfit =>
    obtain ⟨hmem, hsizele, hfree⟩ := runFit_spec _ _ _ _ hf
    obtain ⟨hwfl, hregb⟩ := hwf
    obtain ⟨l1, l2, hdec, hne1, hne2⟩ := wf_mem_decomp (WfL_lt hwfl) hmem
    have hbfitW : bfit.size < W64 := by
      have h1 := (hwfl.2.2 bfit hmem).2
      omega
    have hsub : sub64 bfit.size (mallocAligned size) =
        bfit.size - mallocAligned size := sub64_eq_sub _ _ hsizele hbfitW
    have hreu2 : (reuse cfg.strategy st (mallocAligned size)).2 = some bfit.addr := by
      unfold reuse
      rw [hf]
    have hreu1 : (reuse cfg.strategy st (mallocAligned size)).1 =
        (split_block st bfit.addr (mallocAligned size)).1 := by
      unfold reuse
      rw [hf]
    simp only [malloc, hreu2, hreu1]
    by_cases hrm : bfit.size - mallocAligned size < 104
    · have hrm2 : sub64 bfit.size (mallocAligned size) < 104 := by
        rw [hsub]
        exact hrm
      have hnone := split_block_rm_none st l1 l2 bfit (mallocAligned size) hdec hne1 hrm2
      have hst := split_block_none_state st bfit.addr (mallocAligned size) hnone
      rw [hst]
      have hmap : st.blocks.map
          (fun b => if b.addr = bfit.addr then { b with free := false } else b) =
          l1 ++ ({ bfit with free := false } : MemBlock) :: l2 := by
        rw [hdec]
        exact markUsed_decomp l1 l2 bfit bfit.addr rfl hne1 hne2
      constructor
      · show WfL (st.blocks.map
          (fun b => if b.addr = bfit.addr then { b with free := false } else b))
        rw [hmap]
        apply WfL_mark_mid
        rw [← hdec]
        exact hwfl
      · intro x hx
        show x.region_id < st.g_regions
        have hx2 : x ∈ l1 ++ ({ bfit with free := false } : MemBlock) :: l2 := by
          rw [← hmap]
          exact hx
        rw [hdec] at hregb
        have hd := forall_mem_mid_dest hregb
        exact forall_mem_mid (b := ({ bfit with free := false } : MemBlock))
          hd.1 hd.2.1 hd.2.2 x hx2
    · have hrm2 : ¬ sub64 bfit.size (mallocAligned size) < 104 := by
        rw [hsub]
        exact hrm
      have hrun := split_block_run st l1 l2 bfit (mallocAligned size) hdec hne1
        h104 hfree hrm2
      rw [hrun]
      have hmap := markUsed_decomp l1
        (({ addr := bfit.addr + mallocAligned size,
            name := "Split block " ++ toString st.g_splits,
            size := sub64 bfit.size (mallocAligned size), free := true,
            region_id := bfit.region_id } : MemBlock) :: l2)
        ({ bfit with size := mallocAligned size } : MemBlock) bfit.addr rfl hne1
        (by
          intro x hx
          rcases List.mem_cons.mp hx with rfl | hx
          · show bfit.addr + mallocAligned size ≠ bfit.addr
            omega
          · exact hne2 x hx)
      constructor
      · show WfL ((l1 ++ ({ bfit with size := mallocAligned size } : MemBlock) ::
            ({ addr := bfit.addr + mallocAligned size,
               name := "Split block " ++ toString st.g_splits,
               size := sub64 bfit.size (mallocAligned size), free := true,
               region_id := bfit.region_id } : MemBlock) :: l2).map
          (fun b => if b.addr = bfit.addr then { b with free := false } else b))
        rw [hmap]
        have hres := WfL_split_mark l1 l2 bfit
          ({ addr := bfit.addr + mallocAligned size,
             name := "Split block " ++ toString st.g_splits,
             size := sub64 bfit.size (mallocAligned size), free := true,
             region_id := bfit.region_id } : MemBlock) (mallocAligned size)
          (by rw [← hdec]; exact hwfl) hfree (by omega) hsizele rfl hsub rfl rfl
          (by omega)
        exact hres
      · intro x hx
        show x.region_id < st.g_regions
        have hx2 : x ∈ l1 ++
            ({ { bfit with size := mallocAligned size } with free := false } : MemBlock) ::
            ({ addr := bfit.addr + mallocAligned size,
               name := "Split block " ++ toString st.g_splits,
               size := sub64 bfit.size (mallocAligned size), free := true,
               region_id := bfit.region_id } : MemBlock) :: l2 := by
          rw [← hmap]
          exact hx
        rw [hdec] at hregb
        have hd := forall_mem_mid_dest hregb
        rcases List.mem_append.mp hx2 with hx3 | hx3
        · exact hd.1 x hx3
        · rcases List.mem_cons.mp hx3 with rfl | hx3
          · exact hd.2.1
          · rcases List.mem_cons.mp hx3 with rfl | hx3
            · exact hd.2.1
            · exact hd.2.2 x hx3
  | none =>
    have hreu2 : (reuse cfg.strategy st (mallocAligned size)).2 = none := by
      unfold reuse
      rw [hf]
    cases hmA : mmapAddr with
    | none =>
      simp only [malloc, hreu2]
      exact hwf
    | some a =>
      simp only [malloc, hreu2]
      obtain ⟨hends, haW⟩ := hmm a hmA
      obtain ⟨hrs1, hrs2, hrs3⟩ := regionSizeOf_spec (mallocAligned size) hal1 (by omega)
      obtain ⟨hwfl, hregb⟩ := hwf
      have hane : ∀ x ∈ st.blocks, x.addr ≠ a := by
        intro x hx
        have h1 := hends x hx
        have h2 := (hwfl.2.2 x hx).1
        omega
      have hsub : sub64 (regionSizeOf (mallocAligned size)) (mallocAligned size) =
          regionSizeOf (mallocAligned size) - mallocAligned size :=
        sub64_eq_sub _ _ hrs1 hrs3
      have hwfl1 : WfL (st.blocks ++
          ({ addr := a, name := "Allocation " ++ toString st.g_allocations,
             size := regionSizeOf (mallocAligned size), free := true,
             region_id := st.g_regions } : MemBlock) :: []) := by
        refine ⟨?_, ?_, ?_⟩
        · rw [pairwise_mid]
          refine ⟨hwfl.1, by simp, ?_, by simp, by simp⟩
          intro x hx
          exact hends x hx
        · rw [pairwise_mid]
          refine ⟨hwfl.2.1, by simp, ?_, by simp, by simp⟩
          intro x hx heq hreg
          exfalso
          have h1 := hregb x hx
          change x.region_id = st.g_regions at hreg
          omega
        · refine forall_mem_mid (fun x hx => hwfl.2.2 x hx) ?_ (by simp)
          constructor
          · show 0 < regionSizeOf (mallocAligned size)
            omega
          · show a + regionSizeOf (mallocAligned size) < W64
            exact haW
      by_cases hrm : regionSizeOf (mallocAligned size) - mallocAligned size < 104
      · have hrm2 : sub64 (regionSizeOf (mallocAligned size)) (mallocAligned size) < 104 := by
          rw [hsub]
          exact hrm
        have hnone : (split_block
            { st with
              blocks := st.blocks ++
                [{ addr := a, name := "Allocation " ++ toString st.g_allocations,
                   size := regionSizeOf (mallocAligned size), free := true,
                   region_id := st.g_regions }],
              mapped := st.mapped ++ [(a, regionSizeOf (mallocAligned size))],
              g_allocations := st.g_allocations + 1,
              g_regions := st.g_regions + 1 }
            a (mallocAligned size)).2 = none :=
          split_block_rm_none _ st.blocks []
            ({ addr := a, name := "Allocation " ++ toString st.g_allocations,
               size := regionSizeOf (mallocAligned size), free := true,
               region_id := st.g_regions } : MemBlock) (mallocAligned size) rfl hane hrm2
        have hst := split_block_none_state _ a (mallocAligned size) hnone
        rw [hst]
        have hmap := markUsed_decomp st.blocks []
          ({ addr := a, name := "Allocation " ++ toString st.g_allocations,
             size := regionSizeOf (mallocAligned size), free := true,
             region_id := st.g_regions } : MemBlock) a rfl hane (by simp)
        constructor
        · show WfL ((st.blocks ++
              ({ addr := a, name := "Allocation " ++ toString st.g_allocations,
                 size := regionSizeOf (mallocAligned size), free := true,
                 region_id := st.g_regions } : MemBlock) :: []).map
            (fun b => if b.addr = a then { b with free := false } else b))
          rw [hmap]
          exact WfL_mark_mid st.blocks [] _ hwfl1
        · intro x hx
          show x.region_id < st.g_regions + 1
          have hx2 : x ∈ st.blocks ++
              ({ ({ addr := a, name := "Allocation " ++ toString st.g_allocations,
                    size := regionSizeOf (mallocAligned size), free := true,
                    region_id := st.g_regions } : MemBlock) with free := false } : MemBlock) :: [] := by
            rw [← hmap]
            exact hx
          rcases List.mem_append.mp hx2 with hx3 | hx3
          · have := hregb x hx3
            omega
          · rcases List.mem_cons.mp hx3 with rfl | hx3
            · show st.g_regions < st.g_regions + 1
              omega
            · simp at hx3
      · have hrm2 : ¬ sub64 (regionSizeOf (mallocAligned size)) (mallocAligned size) < 104 := by
          rw [hsub]
          exact hrm
        have hrun : (split_block
            { st with
              blocks := st.blocks ++
                [{ addr := a, name := "Allocation " ++ toString st.g_allocations,
                   size := regionSizeOf (mallocAligned size), free := true,
                   region_id := st.g_regions }],
              mapped := st.mapped ++ [(a, regionSizeOf (mallocAligned size))],
              g_allocations := st.g_allocations + 1,
              g_regions := st.g_regions + 1 }
            a (mallocAligned size)).1 = { st with
              blocks := st.blocks ++
                ({ ({ addr := a, name := "Allocation " ++ toString st.g_allocations,
                      size := regionSizeOf (mallocAligned size), free := true,
                      region_id := st.g_regions } : MemBlock) with size := mallocAligned size } : MemBlock) ::
                ({ addr := a + mallocAligned size,
                   name := "Split block " ++ toString st.g_splits,
                   size := sub64 (regionSizeOf (mallocAligned size)) (mallocAligned size),
                   free := true, region_id := st.g_regions } : MemBlock) :: [],
              mapped := st.mapped ++ [(a, regionSizeOf (mallocAligned size))],
              g_allocations := st.g_allocations + 1,
              g_regions := st.g_regions + 1,
              g_splits := st.g_splits + 1 } :=
          split_block_run _ st.blocks []
            ({ addr := a, name := "Allocation " ++ toString st.g_allocations,
               size := regionSizeOf (mallocAligned size), free := true,
               region_id := st.g_regions } : MemBlock) (mallocAligned size) rfl hane
            h104 rfl hrm2
        rw [hrun]
        have hmap := markUsed_decomp st.blocks
          (({ addr := a + mallocAligned size,
              name := "Split block " ++ toString st.g_splits,
              size := sub64 (regionSizeOf (mallocAligned size)) (mallocAligned size),
              free := true, region_id := st.g_regions } : MemBlock) :: [])
          ({ ({ addr := a, name := "Allocation " ++ toString st.g_allocations,
                size := regionSizeOf (mallocAligned size), free := true,
                region_id := st.g_regions } : MemBlock) with size := mallocAligned size } : MemBlock)
          a rfl hane
          (by
            intro x hx
            rcases List.mem_cons.mp hx with rfl | hx
            · show a + mallocAligned size ≠ a
              omega
            · simp at hx)
        constructor
        · show WfL ((st.blocks ++
              ({ ({ addr := a, name := "Allocation " ++ toString st.g_allocations,
                    size := regionSizeOf (mallocAligned size), free := true,
                    region_id := st.g_regions } : MemBlock) with size := mallocAligned size } : MemBlock) ::
              ({ addr := a + mallocAligned size,
                 name := "Split block " ++ toString st.g_splits,
                 size := sub64 (regionSizeOf (mallocAligned size)) (mallocAligned size),
                 free := true, region_id := st.g_regions } : MemBlock) :: []).map
            (fun b => if b.addr = a then { b with free := false } else b))
          rw [hmap]
          have hres := WfL_split_mark st.blocks []
            ({ addr := a, name := "Allocation " ++ toString st.g_allocations,
               size := regionSizeOf (mallocAligned size), free := true,
               region_id := st.g_regions } : MemBlock)
            ({ addr := a + mallocAligned size,
               name := "Split block " ++ toString st.g_splits,
               size := sub64 (regionSizeOf (mallocAligned size)) (mallocAligned size),
               free := true, region_id := st.g_regions } : MemBlock) (mallocAligned size)
            hwfl1 rfl (by omega) hrs1 rfl hsub rfl rfl
            (by show 0 < regionSizeOf (mallocAligned size) - mallocAligned size; omega)
          exact hres
        · intro x hx
          show x.region_id < st.g_regions + 1
          have hx2 : x ∈ st.blocks ++
              ({ ({ ({ addr := a, name := "Allocation " ++ toString st.g_allocations,
                       size := regionSizeOf (mallocAligned size), free := true,
                       region_id := st.g_regions } : MemBlock) with size := mallocAligned size } : MemBlock) with
                 free := false } : MemBlock) ::
              ({ addr := a + mallocAligned size,
                 name := "Split block " ++ toString st.g_splits,
                 size := sub64 (regionSizeOf (mallocAligned size)) (mallocAligned size),
                 free := true, region_id := st.g_regions } : MemBlock) :: [] := by
            rw [← hmap]
            exact hx
          rcases List.mem_append.mp hx2 with hx3 | hx3
          · have := hregb x hx3
            omega
          · rcases List.mem_cons.mp hx3 with rfl | hx3
            · show st.g_regions < st.g_regions + 1
              omega
            · rcases List.mem_cons.mp hx3 with rfl | hx3
              · show st.g_regions < st.g_regions + 1
                omega
              · simp at hx3

/-- Every well-behaved step of the allocation API preserves
well-formedness. -/
theorem step_preserves (st : AllocState) (op : Op) (hwf : Wf st)
    (hok : stepOk st op = true) : Wf (step st op) := by
  cases op with
  | alloc cfg a size =>
    simp only [stepOk, Bool.and_eq_true, decide_eq_true_eq] at hok
    apply malloc_preserves cfg a st size hwf hok.1
    intro a2 ha2
    rw [ha2] at hok
    have h2 := hok.2
    simp only [Bool.and_eq_true, decide_eq_true_eq, List.all_eq_true] at h2
    exact ⟨fun x hx => by simpa using h2.1 x hx, h2.2⟩
  | rel mo p =>
    cases p with
    | none => exact hwf
    | some p => exact free_preserves mo st p hwf

theorem run_preserves (ops : List Op) :
    ∀ st : AllocState, Wf st → runOk st ops = true → Wf (run st ops) := by
  induction ops with
  | nil =>
    intro st h _
    exact h
  | cons op ops ih =>
    intro st hwf hok
    unfold runOk at hok
    simp only [Bool.and_eq_true] at hok
    show Wf (run (step st op) ops)
    exact ih (step st op) (step_preserves st op hwf hok.1) hok.2

/-! Exact-result characterisations of free and merge, used for the
commutation and unmap-failure claims. -/

theorem munmapStep_false (m : List (Nat × Nat)) (a len : Nat) :
    munmapStep false m a len = (m, true) := rfl

theorem pairwise_both {R : MemBlock → MemBlock → Prop} {l : List MemBlock}
    (h : l.Pairwise R) : ∀ x ∈ l, ∀ y ∈ l, x = y ∨ R x y ∨ R y x := by
  induction h with
  | nil => intro x hx; simp at hx
  | cons hr _ ih =>
    intro x hx y hy
    rcases List.mem_cons.mp hx with rfl | hx2 <;>
      rcases List.mem_cons.mp hy with rfl | hy2
    · exact Or.inl rfl
    · exact Or.inr (Or.inl (hr y hy2))
    · exact Or.inr (Or.inr (hr x hx2))
    · exact ih x hx2 y hy2

theorem headAddr_ne (l : List MemBlock) (c : MemBlock) (rest : List MemBlock)
    (a : Nat) (h1 : ∀ x ∈ l, x.addr ≠ a) (hc : c.addr ≠ a) :
    (headAddr (l ++ c :: rest) == some a) = false := by
  cases l with
  | nil =>
    simp only [List.nil_append]
    rw [show headAddr (c :: rest) = some c.addr from rfl]
    exact beq_eq_false_iff_ne.mpr (fun h => hc (Option.some.inj h))
  | cons d t =>
    simp only [List.cons_append]
    rw [show headAddr (d :: (t ++ c :: rest)) = some d.addr from rfl]
    exact beq_eq_false_iff_ne.mpr (fun h => h1 d (by simp) (Option.some.inj h))

theorem lastAddr_concat (l : List MemBlock) (c : MemBlock) :
    lastAddr (l ++ [c]) = some c.addr := by
  simp [lastAddr, List.getLast?_concat]

/-- free(ptr) reduces to the merge of the zipper position of the marked
block, for a data pointer HEADER_SIZE past the block header. -/
theorem free_run (mo : Bool) (st : AllocState) (l1 l2 : List MemBlock)
    (b : MemBlock) (hblocks : st.blocks = l1 ++ b :: l2)
    (hne : ∀ x ∈ l1, x.addr ≠ b.addr) :
    free mo st (b.addr + HEADER_SIZE) =
      (merge_ctx mo
        { st with blocks := l1 ++ ({ b with free := true } : MemBlock) :: l2 }
        l1.reverse ({ b with free := true } : MemBlock) l2).1 := by
  have hseek : seek [] st.blocks (b.addr + HEADER_SIZE - HEADER_SIZE) =
      some (l1.reverse, b, l2) := by
    rw [Nat.add_sub_cancel, hblocks]
    exact seek_found b.addr l1 l2 b hne rfl
  simp only [free, hseek]
  rw [List.reverse_reverse]

/-- When the merged block stays linked and is neither alone in memory nor
bordered only by foreign regions, the unmap cascade keeps the chain. -/
theorem phase3_inlist_else (mo : Bool) (st : AllocState)
    (pre_rev post : List MemBlock) (b : MemBlock)
    (h3 : ¬(pre_rev = [] ∧ post = []))
    (h4 : (diffRegion b post.head? && diffRegion b pre_rev.head?) = false)
    (h5 : post = [] → diffRegion b pre_rev.head? = false)
    (h6 : pre_rev = [] → diffRegion b post.head? = false) :
    phase3_inlist mo st pre_rev b post =
      ({ st with blocks := pre_rev.reverse ++ b :: post }, some b.addr, false) := by
  have hc1 : (pre_rev.isEmpty && post.isEmpty) = false := by
    cases pre_rev <;> cases post <;> simp_all
  have hc3 : (pre_rev.head?.isSome && post.isEmpty &&
      diffRegion b pre_rev.head?) = false := by
    cases post with
    | cons d t => simp
    | nil => rw [h5 rfl]; simp
  have hc4 : (post.head?.isSome && pre_rev.isEmpty &&
      diffRegion b post.head?) = false := by
    cases pre_rev with
    | cons d t => simp
    | nil => rw [h6 rfl]; simp
  unfold phase3_inlist
  rw [hc1, if_neg Bool.false_ne_true, h4, if_neg Bool.false_ne_true,
    hc3, if_neg Bool.false_ne_true, hc4, if_neg Bool.false_ne_true]

theorem merge_phase2_noabsorb (mo : Bool) (st : AllocState)
    (pre_rev post : List MemBlock) (b : MemBlock)
    (h2 : ∀ prev ∈ pre_rev.head?,
      (prev.free && (prev.region_id == b.region_id)) = false)
    (h3 : ¬(pre_rev = [] ∧ post = []))
    (h4 : (diffRegion b post.head? && diffRegion b pre_rev.head?) = false)
    (h5 : post = [] → diffRegion b pre_rev.head? = false)
    (h6 : pre_rev = [] → diffRegion b post.head? = false) :
    merge_phase2 mo st pre_rev b post =
      ({ st with blocks := pre_rev.reverse ++ b :: post }, some b.addr, false) := by
  cases pre_rev with
  | nil =>
    simp only [merge_phase2]
    exact phase3_inlist_else mo st [] post b h3 h4 h5 h6
  | cons prev pre2 =>
    simp only [merge_phase2]
    rw [if_neg (show ¬((prev.free && (prev.region_id == b.region_id)) = true) by
      rw [h2 prev rfl]; exact Bool.false_ne_true)]
    exact phase3_inlist_else mo st (prev :: pre2) post b h3 h4 h5 h6

theorem merge_ctx_noabsorb (mo : Bool) (st : AllocState)
    (pre_rev post : List MemBlock) (b : MemBlock)
    (h1 : ∀ nxt ∈ post.head?,
      (nxt.free && (nxt.region_id == b.region_id)) = false)
    (h2 : ∀ prev ∈ pre_rev.head?,
      (prev.free && (prev.region_id == b.region_id)) = false)
    (h3 : ¬(pre_rev = [] ∧ post = []))
    (h4 : (diffRegion b post.head? && diffRegion b pre_rev.head?) = false)
    (h5 : post = [] → diffRegion b pre_rev.head? = false)
    (h6 : pre_rev = [] → diffRegion b post.head? = false) :
    merge_ctx mo st pre_rev b post =
      ({ st with blocks := pre_rev.reverse ++ b :: post }, some b.addr, false) := by
  cases post with
  | nil =>
    simp only [merge_ctx]
    exact merge_phase2_noabsorb mo st pre_rev [] b h2 h3 h4 h5 h6
  | cons nxt rest =>
    simp only [merge_ctx]
    rw [if_neg (show ¬((nxt.free && (nxt.region_id == b.region_id)) = true) by
      rw [h1 nxt rfl]; exact Bool.false_ne_true)]
    exact merge_phase2_noabsorb mo st pre_rev (nxt :: rest) b h2 h3 h4 h5 h6

/-- Phase 2 when the previous block is free and in the same region: it
absorbs the merged block, and when that block has a linked neighbour in the
same region the stale-header cascade leaves the assembled chain alone. -/
theorem merge_phase2_absorb (mo : Bool) (st : AllocState)
    (pre2 post : List MemBlock) (P b : MemBlock)
    (hPf : P.free = true) (hPr : P.region_id = b.region_id)
    (hneP : P.addr ≠ b.addr) (hne : ∀ x ∈ pre2, x.addr ≠ b.addr) :
    merge_phase2 mo st (P :: pre2) b post =
      ({ st with blocks :=
          pre2.reverse ++ ({ P with size := P.size + b.size } : MemBlock) :: post },
       some b.addr, false) := by
  have hcnd : (P.free && (P.region_id == b.region_id)) = true := by
    rw [hPf, hPr]; simp
  cases post with
  | nil =>
    simp only [merge_phase2]
    rw [if_pos hcnd]
    have hlast : (lastAddr (pre2.reverse ++
        [({ P with size := P.size + b.size } : MemBlock)]) == some b.addr) = false := by
      rw [lastAddr_concat]
      show (some P.addr == some b.addr) = false
      exact beq_eq_false_iff_ne.mpr (fun h => hneP (Option.some.inj h))
    unfold phase3_stale
    rw [hlast, Bool.and_false, if_neg Bool.false_ne_true,
      if_neg (show ¬((diffRegion b none && diffRegion b none) = true) by
        simp [diffRegion]),
      if_neg (by simp), if_neg (by simp)]
  | cons nxt rest =>
    simp only [merge_phase2]
    rw [if_pos hcnd]
    have hhead : (headAddr (pre2.reverse ++
        ({ P with size := P.size + b.size } : MemBlock) :: nxt :: rest) ==
          some b.addr) = false := by
      apply headAddr_ne
      · intro x hx
        exact hne x (List.mem_reverse.mp hx)
      · show P.addr ≠ b.addr
        exact hneP
    have hdp : diffRegion b (some P) = false := by
      simp only [diffRegion]
      rw [hPr]
      simp
    unfold phase3_stale
    rw [hhead, hdp]
    simp only [Bool.and_false, Bool.false_and]
    rw [if_neg Bool.false_ne_true, if_neg Bool.false_ne_true,
      if_neg Bool.false_ne_true, if_neg Bool.false_ne_true]

/-- Marking a block free whose neighbours do not merge with it: the block is
just marked free in place. -/
theorem free_mark_only (mo : Bool) (st : AllocState) (l1 l2 : List MemBlock)
    (b : MemBlock)
    (hblocks : st.blocks = l1 ++ b :: l2) (hne : ∀ x ∈ l1, x.addr ≠ b.addr)
    (h1 : ∀ nxt ∈ l2.head?,
      (nxt.free && (nxt.region_id == b.region_id)) = false)
    (h2 : ∀ prev ∈ l1.getLast?,
      (prev.free && (prev.region_id == b.region_id)) = false)
    (h3 : ¬(l1 = [] ∧ l2 = []))
    (h4 : (diffRegion b l2.head? && diffRegion b l1.getLast?) = false)
    (h5 : l2 = [] → diffRegion b l1.getLast? = false)
    (h6 : l1 = [] → diffRegion b l2.head? = false) :
    free mo st (b.addr + HEADER_SIZE) =
      { st with blocks := l1 ++ ({ b with free := true } : MemBlock) :: l2 } := by
  rw [free_run mo st l1 l2 b hblocks hne]
  rw [merge_ctx_noabsorb mo _ l1.reverse l2 ({ b with free := true } : MemBlock)
    (fun nxt hn => h1 nxt hn)
    (fun prev hp => h2 prev (by rw [← List.head?_reverse]; exact hp))
    (by rintro ⟨hr, hl⟩; exact h3 ⟨by simpa using hr, hl⟩)
    (by rw [List.head?_reverse]; exact h4)
    (fun hl => by rw [List.head?_reverse]; exact h5 hl)
    (fun hr => h6 (by simpa using hr))]
  rw [List.reverse_reverse]

/-- Releasing a block whose previous neighbour is free and in the same
region: the previous block absorbs it. -/
theorem free_absorb_prev (mo : Bool) (st : AllocState) (l1 l2 : List MemBlock)
    (P b : MemBlock)
    (hblocks : st.blocks = l1 ++ P :: b :: l2)
    (hne1 : ∀ x ∈ l1, x.addr ≠ b.addr) (hneP : P.addr ≠ b.addr)
    (hPf : P.free = true) (hPr : P.region_id = b.region_id)
    (h1 : ∀ nxt ∈ l2.head?,
      (nxt.free && (nxt.region_id == b.region_id)) = false) :
    free mo st (b.addr + HEADER_SIZE) =
      { st with blocks :=
          l1 ++ ({ P with size := P.size + b.size } : MemBlock) :: l2 } := by
  rw [free_run mo st (l1 ++ [P]) l2 b (by simpa using hblocks)
    (by intro x hx
        rcases List.mem_append.mp hx with hx2 | hx2
        · exact hne1 x hx2
        · rw [List.mem_singleton] at hx2
          subst hx2
          exact hneP)]
  have hrev : (l1 ++ [P]).reverse = P :: l1.reverse := by simp
  rw [hrev]
  have hres := merge_phase2_absorb mo
    { st with blocks := (l1 ++ [P]) ++ ({ b with free := true } : MemBlock) :: l2 }
    l1.reverse l2 P ({ b with free := true } : MemBlock) hPf hPr hneP
    (fun x hx => hne1 x (List.mem_reverse.mp hx))
  have hgoal : (merge_phase2 mo
      { st with blocks := (l1 ++ [P]) ++ ({ b with free := true } : MemBlock) :: l2 }
      (P :: l1.reverse) ({ b with free := true } : MemBlock) l2).1 =
      { st with blocks :=
        l1 ++ ({ P with size := P.size + b.size } : MemBlock) :: l2 } := by
    rw [hres, List.reverse_reverse]
  cases l2 with
  | nil => exact hgoal
  | cons nxt rest =>
    have hc0 : (nxt.free &&
        (nxt.region_id == ({ b with free := true } : MemBlock).region_id)) = false :=
      h1 nxt rfl
    simp only [merge_ctx]
    rw [if_neg (fun h => Bool.false_ne_true (hc0 ▸ h))]
    exact hgoal

/-- Releasing a block whose next neighbour is free and in the same region
while the previous one does not merge: the block absorbs the next one. -/
theorem free_absorb_next (mo : Bool) (st : AllocState) (l1 l2 : List MemBlock)
    (b N : MemBlock)
    (hblocks : st.blocks = l1 ++ b :: N :: l2)
    (hne : ∀ x ∈ l1, x.addr ≠ b.addr)
    (hNf : N.free = true) (hNr : N.region_id = b.region_id)
    (h2 : ∀ prev ∈ l1.getLast?,
      (prev.free && (prev.region_id == b.region_id)) = false)
    (h3 : ¬(l1 = [] ∧ l2 = []))
    (h4 : (diffRegion b l2.head? && diffRegion b l1.getLast?) = false)
    (h5 : l2 = [] → diffRegion b l1.getLast? = false)
    (h6 : l1 = [] → diffRegion b l2.head? = false) :
    free mo st (b.addr + HEADER_SIZE) =
      { st with blocks := l1 ++
          ({ b with free := true, size := b.size + N.size } : MemBlock) :: l2 } := by
  rw [free_run mo st l1 (N :: l2) b hblocks hne]
  have hcnd : (N.free &&
      (N.region_id == ({ b with free := true } : MemBlock).region_id)) = true := by
    rw [hNf]
    show (true && (N.region_id == b.region_id)) = true
    rw [hNr]
    simp
  have hres := merge_phase2_noabsorb mo
    { st with blocks := l1 ++ ({ b with free := true } : MemBlock) :: N :: l2 }
    l1.reverse l2 ({ b with free := true, size := b.size + N.size } : MemBlock)
    (fun prev hp => h2 prev (by rw [← List.head?_reverse]; exact hp))
    (by rintro ⟨hr, hl⟩; exact h3 ⟨by simpa using hr, hl⟩)
    (by rw [List.head?_reverse]; exact h4)
    (fun hl => by rw [List.head?_reverse]; exact h5 hl)
    (fun hr => h6 (by simpa using hr))
  have hgoal : (merge_phase2 mo
      { st with blocks := l1 ++ ({ b with free := true } : MemBlock) :: N :: l2 }
      l1.reverse
      ({ b with free := true, size := b.size + N.size } : MemBlock) l2).1 =
      { st with blocks := l1 ++
        ({ b with free := true, size := b.size + N.size } : MemBlock) :: l2 } := by
    rw [hres, List.reverse_reverse]
  simp only [merge_ctx]
  rw [if_pos hcnd]
  exact hgoal

/-! Behaviour of the unmap cascade when munmap fails. -/

theorem phase3_inlist_report (st : AllocState) (pre_rev post : List MemBlock)
    (b : MemBlock)
    (hpre : ∀ x ∈ pre_rev, x.addr ≠ b.addr)
    (hpost : ∀ x ∈ post, x.addr ≠ b.addr)
    (hrep : (phase3_inlist false st pre_rev b post).2.2 = true) :
    (phase3_inlist false st pre_rev b post).2.1 = none ∧
    (phase3_inlist false st pre_rev b post).1.mapped = st.mapped ∧
    ∀ x ∈ (phase3_inlist false st pre_rev b post).1.blocks, x.addr ≠ b.addr := by
  have hmem : ∀ x ∈ pre_rev.reverse ++ post, x.addr ≠ b.addr := by
    intro x hx
    rcases List.mem_append.mp hx with h | h
    · exact hpre x (List.mem_reverse.mp h)
    · exact hpost x h
  unfold phase3_inlist at hrep ⊢
  simp only [munmapStep_false] at hrep ⊢
  by_cases h1 : (pre_rev.isEmpty && post.isEmpty) = true
  · rw [if_pos h1] at hrep ⊢
    exact ⟨rfl, rfl, fun x hx => absurd hx (List.not_mem_nil x)⟩
  · rw [if_neg h1] at hrep ⊢
    by_cases h2 : (diffRegion b post.head? && diffRegion b pre_rev.head?) = true
    · rw [if_pos h2] at hrep ⊢
      exact ⟨rfl, rfl, fun x hx => hmem x hx⟩
    · rw [if_neg h2] at hrep ⊢
      by_cases h3 : (pre_rev.head?.isSome && post.isEmpty &&
          diffRegion b pre_rev.head?) = true
      · rw [if_pos h3] at hrep ⊢
        exact ⟨rfl, rfl, fun x hx => hmem x hx⟩
      · rw [if_neg h3] at hrep ⊢
        by_cases h4 : (post.head?.isSome && pre_rev.isEmpty &&
            diffRegion b post.head?) = true
        · rw [if_pos h4] at hrep ⊢
          exact ⟨rfl, rfl, fun x hx => hmem x hx⟩
        · rw [if_neg h4] at hrep ⊢
          simp at hrep

theorem phase3_stale_report (st : AllocState) (l2 : List MemBlock)
    (b : MemBlock) (sp sn : Option MemBlock)
    (hl2 : ∀ x ∈ l2, x.addr ≠ b.addr)
    (hrep : (phase3_stale false st l2 b sp sn).2.2 = true) :
    (phase3_stale false st l2 b sp sn).2.1 = none ∧
    (phase3_stale false st l2 b sp sn).1.mapped = st.mapped ∧
    ∀ x ∈ (phase3_stale false st l2 b sp sn).1.blocks, x.addr ≠ b.addr := by
  unfold phase3_stale at hrep ⊢
  simp only [munmapStep_false] at hrep ⊢
  by_cases h1 : ((headAddr l2 == some b.addr) && (lastAddr l2 == some b.addr)) = true
  · rw [if_pos h1] at hrep ⊢
    exact ⟨rfl, rfl, fun x hx => absurd hx (List.not_mem_nil x)⟩
  · rw [if_neg h1] at hrep ⊢
    by_cases h2 : (diffRegion b sn && diffRegion b sp) = true
    · rw [if_pos h2] at hrep ⊢
      exact ⟨rfl, rfl, fun x hx => hl2 x hx⟩
    · rw [if_neg h2] at hrep ⊢
      by_cases h3 : (sp.isSome && (lastAddr l2 == some b.addr) &&
          diffRegion b sp) = true
      · rw [if_pos h3] at hrep ⊢
        exact ⟨rfl, rfl, fun x hx => hl2 x hx⟩
      · rw [if_neg h3] at hrep ⊢
        by_cases h4 : (sn.isSome && (headAddr l2 == some b.addr) &&
            diffRegion b sn) = true
        · rw [if_pos h4] at hrep ⊢
          exact ⟨rfl, rfl, fun x hx => hl2 x hx⟩
        · rw [if_neg h4] at hrep ⊢
          simp at hrep

theorem merge_phase2_report (st : AllocState) (pre_rev post : List MemBlock)
    (b : MemBlock)
    (hpre : ∀ x ∈ pre_rev, x.addr ≠ b.addr)
    (hpost : ∀ x ∈ post, x.addr ≠ b.addr)
    (hrep : (merge_phase2 false st pre_rev b post).2.2 = true) :
    (merge_phase2 false st pre_rev b post).2.1 = none ∧
    (merge_phase2 false st pre_rev b post).1.mapped = st.mapped ∧
    ∀ x ∈ (merge_phase2 false st pre_rev b post).1.blocks, x.addr ≠ b.addr := by
  cases pre_rev with
  | nil =>
    simp only [merge_phase2] at hrep ⊢
    exact phase3_inlist_report st [] post b (by simp) hpost hrep
  | cons prev pre2 =>
    simp only [merge_phase2] at hrep ⊢
    by_cases hc : (prev.free && (prev.region_id == b.region_id)) = true
    · rw [if_pos hc] at hrep ⊢
      cases post with
      | nil =>
        exact phase3_stale_report st
          (pre2.reverse ++ [({ prev with size := prev.size + b.size } : MemBlock)])
          b none none
          (by intro x hx
              rcases List.mem_append.mp hx with h | h
              · exact hpre x (List.mem_cons_of_mem prev (List.mem_reverse.mp h))
              · rw [List.mem_singleton] at h
                subst h
                exact hpre prev (by simp))
          hrep
      | cons nxt rest =>
        exact phase3_stale_report st
          (pre2.reverse ++ ({ prev with size := prev.size + b.size } : MemBlock) ::
            nxt :: rest)
          b (some prev) (some nxt)
          (by intro x hx
              rcases List.mem_append.mp hx with h | h
              · exact hpre x (List.mem_cons_of_mem prev (List.mem_reverse.mp h))
              · rcases List.mem_cons.mp h with rfl | h2
                · exact hpre prev (by simp)
                · exact hpost x h2)
          hrep
    · rw [if_neg hc] at hrep ⊢
      exact phase3_inlist_report st (prev :: pre2) post b hpre hpost hrep

theorem merge_ctx_report (st : AllocState) (pre_rev post : List MemBlock)
    (b : MemBlock)
    (hpre : ∀ x ∈ pre_rev, x.addr ≠ b.addr)
    (hpost : ∀ x ∈ post, x.addr ≠ b.addr)
    (hrep : (merge_ctx false st pre_rev b post).2.2 = true) :
    (merge_ctx false st pre_rev b post).2.1 = none ∧
    (merge_ctx false st pre_rev b post).1.mapped = st.mapped ∧
    ∀ x ∈ (merge_ctx false st pre_rev b post).1.blocks, x.addr ≠ b.addr := by
  cases post with
  | nil =>
    simp only [merge_ctx] at hrep ⊢
    exact merge_phase2_report st pre_rev [] b hpre (by simp) hrep
  | cons nxt rest =>
    simp only [merge_ctx] at hrep ⊢
    by_cases hc : (nxt.free && (nxt.region_id == b.region_id)) = true
    · rw [if_pos hc] at hrep ⊢
      have h := merge_phase2_report st pre_rev rest
        ({ b with size := b.size + nxt.size } : MemBlock)
        (fun x hx => hpre x hx)
        (fun x hx => hpost x (List.mem_cons_of_mem nxt hx))
        hrep
      exact h
    · rw [if_neg hc] at hrep ⊢
      exact merge_phase2_report st pre_rev (nxt :: rest) b hpre hpost hrep

/-- Claim C1 (corrected, environment-qualified form): for every sequence of
allocate and release operations whose fresh regions are mapped beyond all
tracked blocks (runOk), the chain stays strictly address-ordered at every
observation point, with the head the lowest-address and the tail the
highest-address block currently tracked. -/
theorem C1_address_order (ops : List Op) (h : runOk initState ops = true) :
    List.Chain' (fun x y : MemBlock => x.addr < y.addr) (run initState ops).blocks ∧
    (∀ a ∈ headAddr (run initState ops).blocks,
      ∀ x ∈ (run initState ops).blocks, a ≤ x.addr) ∧
    (∀ a ∈ lastAddr (run initState ops).blocks,
      ∀ x ∈ (run initState ops).blocks, x.addr ≤ a) := by
  have hwf : Wf (run initState ops) := run_preserves ops initState (by decide) h
  have hlt := WfL_lt hwf.1
  refine ⟨hlt.chain', ?_, ?_⟩
  · intro a ha x hx
    cases hbl : (run initState ops).blocks with
    | nil =>
      rw [hbl] at ha
      simp [headAddr] at ha
    | cons c t =>
      rw [hbl] at ha hx hlt
      have hac : c.addr = a := by simpa [headAddr] using ha
      rcases List.mem_cons.mp hx with rfl | hx2
      · exact Nat.le_of_eq hac.symm
      · rw [← hac]
        exact Nat.le_of_lt (List.rel_of_pairwise_cons hlt hx2)
  · intro a ha x hx
    have hrevp : (run initState ops).blocks.reverse.Pairwise
        (fun x y : MemBlock => y.addr < x.addr) := List.pairwise_reverse.mpr hlt
    cases hrv : (run initState ops).blocks.reverse with
    | nil =>
      have hgl : (run initState ops).blocks.getLast? = none := by
        rw [← List.head?_reverse, hrv]
        rfl
      rw [lastAddr, hgl] at ha
      simp at ha
    | cons c t =>
      have hgl : (run initState ops).blocks.getLast? = some c := by
        rw [← List.head?_reverse, hrv]
        rfl
      have hac : c.addr = a := by simpa [lastAddr, hgl] using ha
      rw [hrv] at hrevp
      have hxr : x ∈ c :: t := by
        rw [← hrv]
        exact List.mem_reverse.mpr hx
      rcases List.mem_cons.mp hxr with rfl | hxr2
      · exact Nat.le_of_eq hac
      · rw [← hac]
        exact Nat.le_of_lt (List.rel_of_pairwise_cons hrevp hxr2)

theorem C1_address_order_witness :
    runOk initState c1Ops = true ∧
    (List.Chain' (fun x y : MemBlock => x.addr < y.addr) (run initState c1Ops).blocks ∧
     (∀ a ∈ headAddr (run initState c1Ops).blocks,
       ∀ x ∈ (run initState c1Ops).blocks, a ≤ x.addr) ∧
     (∀ a ∈ lastAddr (run initState c1Ops).blocks,
       ∀ x ∈ (run initState c1Ops).blocks, x.addr ≤ a)) :=
  ⟨by decide, C1_address_order c1Ops (by decide)⟩

/-- Claim C3 (corrected, neighbour-qualified form): releasing two adjacent
in-use same-region blocks whose merged extent does not become a fully-free
region (some outer neighbour shares the region, and no outer neighbour is a
free same-region block) yields, in either order of the two release calls,
the same state: one free block of the summed size replacing the two, and
nothing else changed. -/
theorem C3_coalesce_commutes (mo : Bool) (st : AllocState)
    (pre post : List MemBlock) (A B : MemBlock)
    (hblocks : st.blocks = pre ++ A :: B :: post)
    (hwfl : WfL st.blocks)
    (hAf : A.free = false) (hBf : B.free = false)
    (hadj : A.addr + A.size = B.addr) (hreg : A.region_id = B.region_id)
    (hpre : ∀ P ∈ pre.getLast?,
      (P.free && (P.region_id == A.region_id)) = false)
    (hpost : ∀ N ∈ post.head?,
      (N.free && (N.region_id == B.region_id)) = false)
    (hnb : (∃ P ∈ pre.getLast?, P.region_id = A.region_id) ∨
           (∃ N ∈ post.head?, N.region_id = A.region_id)) :
    free mo (free mo st (A.addr + HEADER_SIZE)) (B.addr + HEADER_SIZE) =
      { st with blocks := pre ++
          ({ A with free := true, size := A.size + B.size } : MemBlock) :: post } ∧
    free mo (free mo st (B.addr + HEADER_SIZE)) (A.addr + HEADER_SIZE) =
      { st with blocks := pre ++
          ({ A with free := true, size := A.size + B.size } : MemBlock) :: post } := by
  rw [hblocks] at hwfl
  obtain ⟨hR, _hadjp, hsz⟩ := hwfl
  have hmid := pairwise_mid.mp hR
  have hszA : 0 < A.size := (hsz A (by simp)).1
  have hAB : A.addr < B.addr := by omega
  have hABne : A.addr ≠ B.addr := by omega
  have hpre_lt : ∀ x ∈ pre, x.addr < A.addr := by
    intro x hx
    have h1 : x.addr + x.size ≤ A.addr := hmid.2.2.1 x hx
    have h2 := (hsz x (by simp [hx])).1
    omega
  have hpreA : ∀ x ∈ pre, x.addr ≠ A.addr := by
    intro x hx
    have := hpre_lt x hx
    omega
  have hpreB : ∀ x ∈ pre, x.addr ≠ B.addr := by
    intro x hx
    have := hpre_lt x hx
    omega
  have hdB : diffRegion A (some B) = false := by
    simp only [diffRegion]
    rw [hreg]
    simp
  have hfree1 : free mo st (A.addr + HEADER_SIZE) =
      { st with blocks := pre ++ ({ A with free := true } : MemBlock) :: B :: post } := by
    apply free_mark_only mo st pre (B :: post) A hblocks hpreA
    · intro nxt hn
      have hBn : B = nxt := by simpa using hn
      subst hBn
      rw [hBf]
      simp
    · exact hpre
    · rintro ⟨-, hcon⟩
      exact List.cons_ne_nil B post hcon
    · show (diffRegion A (some B) && diffRegion A pre.getLast?) = false
      rw [hdB]
      simp
    · intro hcon
      exact absurd hcon (List.cons_ne_nil B post)
    · intro _
      show diffRegion A (some B) = false
      exact hdB
  have hfree2 : free mo
      { st with blocks := pre ++ ({ A with free := true } : MemBlock) :: B :: post }
      (B.addr + HEADER_SIZE) =
      { st with blocks := pre ++
        ({ A with free := true, size := A.size + B.size } : MemBlock) :: post } := by
    have h0 := free_absorb_prev mo
      { st with blocks := pre ++ ({ A with free := true } : MemBlock) :: B :: post }
      pre post ({ A with free := true } : MemBlock) B rfl hpreB hABne rfl hreg hpost
    exact h0
  have hdA : diffRegion A (some A) = false := by
    simp only [diffRegion]
    simp
  have hfree3 : free mo st (B.addr + HEADER_SIZE) =
      { st with blocks := pre ++ A :: ({ B with free := true } : MemBlock) :: post } := by
    have h0 := free_mark_only mo st (pre ++ [A]) post B (by simpa using hblocks)
      (by intro x hx
          rcases List.mem_append.mp hx with hx2 | hx2
          · exact hpreB x hx2
          · rw [List.mem_singleton] at hx2
            subst hx2
            exact hABne)
      hpost
      (by intro prev hp
          rw [List.getLast?_concat] at hp
          have hAp : A = prev := by simpa using hp
          subst hAp
          rw [hAf]
          simp)
      (by rintro ⟨hcon, -⟩
          simp at hcon)
      (by rw [List.getLast?_concat]
          have : diffRegion B (some A) = false := by
            simp only [diffRegion]
            show (A.region_id != B.region_id) = false
            rw [hreg]
            simp
          rw [this]
          simp)
      (by intro _
          rw [List.getLast?_concat]
          simp only [diffRegion]
          show (A.region_id != B.region_id) = false
          rw [hreg]
          simp)
      (by intro hcon
          simp at hcon)
    rw [List.append_assoc, List.singleton_append] at h0
    exact h0
  have hpost_ne_nil_of_pre_nil : pre = [] → post ≠ [] := by
    intro hp hq
    rcases hnb with ⟨P, hP, -⟩ | ⟨N, hN, -⟩
    · rw [hp] at hP
      simp at hP
    · rw [hq] at hN
      simp at hN
  have hfree4 : free mo
      { st with blocks := pre ++ A :: ({ B with free := true } : MemBlock) :: post }
      (A.addr + HEADER_SIZE) =
      { st with blocks := pre ++
        ({ A with free := true, size := A.size + B.size } : MemBlock) :: post } := by
    have h0 := free_absorb_next mo
      { st with blocks := pre ++ A :: ({ B with free := true } : MemBlock) :: post }
      pre post A ({ B with free := true } : MemBlock) rfl hpreA rfl hreg.symm hpre
      (by rintro ⟨hp, hq⟩
          exact hpost_ne_nil_of_pre_nil hp hq)
      (by rcases hnb with ⟨P, hP, hPr2⟩ | ⟨N, hN, hNr2⟩
          · rw [hP]
            have : diffRegion A (some P) = false := by
              simp only [diffRegion]
              rw [hPr2]
              simp
            rw [this]
            simp
          · rw [hN]
            have : diffRegion A (some N) = false := by
              simp only [diffRegion]
              rw [hNr2]
              simp
            rw [this]
            simp)
      (by intro hq
          rcases hnb with ⟨P, hP, hPr2⟩ | ⟨N, hN, -⟩
          · rw [hP]
            simp only [diffRegion]
            rw [hPr2]
            simp
          · rw [hq] at hN
            simp at hN)
      (by intro hp
          rcases hnb with ⟨P, hP, -⟩ | ⟨N, hN, hNr2⟩
          · rw [hp] at hP
            simp at hP
          · rw [hN]
            simp only [diffRegion]
            rw [hNr2]
            simp)
    exact h0
  constructor
  · rw [hfree1]
    exact hfree2
  · rw [hfree3]
    exact hfree4

theorem C3_coalesce_commutes_witness :
    free true (free true c3W (c3A.addr + HEADER_SIZE)) (c3B.addr + HEADER_SIZE) =
      { c3W with blocks :=
          [({ c3A with free := true, size := c3A.size + c3B.size } : MemBlock), c3N] } ∧
    free true (free true c3W (c3B.addr + HEADER_SIZE)) (c3A.addr + HEADER_SIZE) =
      { c3W with blocks :=
          [({ c3A with free := true, size := c3A.size + c3B.size } : MemBlock), c3N] } :=
  C3_coalesce_commutes true c3W [] [c3N] c3A c3B rfl (by decide) rfl rfl (by decide)
    rfl (by intro P hP; simp at hP)
    (by intro N hN
        have hNe : c3N = N := by simpa using hN
        subst hNe
        rfl)
    (Or.inr ⟨c3N, rfl, rfl⟩)

/-- Claim C7 (corrected): when munmap fails during coalescing the failure is
reported and the memory stays mapped, but merge_block has already unlinked
the block before attempting the unmap, so it returns NULL and the block is
no longer tracked in the list (its address heads no chain entry). -/
theorem C7_unmap_report (st : AllocState) (a : Nat) (hwf : Wf st)
    (hrep : (merge_block false st a).2.2 = true) :
    (merge_block false st a).2.1 = none ∧
    (merge_block false st a).1.mapped = st.mapped ∧
    ∀ x ∈ (merge_block false st a).1.blocks, x.addr ≠ a := by
  unfold merge_block at hrep ⊢
  cases hs : seek [] st.blocks a with
  | none =>
    rw [hs] at hrep
    simp at hrep
  | some trip =>
    obtain ⟨pre_rev, b, post⟩ := trip
    rw [hs] at hrep
    obtain ⟨hdec, hba, hne⟩ := seek_nil_spec hs
    have hlt := WfL_lt hwf.1
    rw [hdec] at hlt
    have hmid := pairwise_mid.mp hlt
    have hpost : ∀ x ∈ post, x.addr ≠ b.addr := by
      intro x hx
      have : b.addr < x.addr := hmid.2.2.2.1 x hx
      omega
    have hne2 : ∀ x ∈ pre_rev, x.addr ≠ b.addr := by
      intro x hx
      rw [hba]
      exact hne x hx
    have h := merge_ctx_report st pre_rev post b hne2 hpost hrep
    refine ⟨h.1, h.2.1, ?_⟩
    intro x hx
    rw [← hba]
    exact h.2.2 x hx

theorem C7_unmap_report_witness :
    (merge_block false c7S 4096).2.2 = true ∧
    ((merge_block false c7S 4096).2.1 = none ∧
     (merge_block false c7S 4096).1.mapped = c7S.mapped ∧
     ∀ x ∈ (merge_block false c7S 4096).1.blocks, x.addr ≠ 4096) :=
  ⟨by decide, C7_unmap_report c7S 4096 (by decide) (by decide)⟩

/-! The region-grouped invariant WfG: it constrains only the relative
placement of blocks inside one region (tiling, adjacency-freeness) and
keeps distinct regions disjoint, without ordering the regions by address.
It is preserved by every operation as long as fresh regions are mapped
disjoint from the tracked blocks, wherever the OS puts them. -/

theorem chain'_mid_iff {R : MemBlock → MemBlock → Prop} {A C : List MemBlock}
    {b : MemBlock} :
    (A ++ b :: C).Chain' R ↔
      A.Chain' R ∧ C.Chain' R ∧ (∀ x ∈ A.getLast?, R x b) ∧
        ∀ y ∈ C.head?, R b y := by
  rw [List.chain'_append, List.chain'_cons']
  constructor
  · rintro ⟨h1, ⟨h2, h3⟩, h4⟩
    exact ⟨h1, h3, fun x hx => h4 x hx b rfl, h2⟩
  · rintro ⟨h1, h2, h3, h4⟩
    refine ⟨h1, ⟨h4, h2⟩, ?_⟩
    intro x hx y hy
    have hby : b = y := by simpa using hy
    subst hby
    exact h3 x hx

theorem wfg_regionR_head :
    ∀ (t : List MemBlock) (c : MemBlock), (c :: t).Pairwise regionLe →
      (c :: t).Chain' adjTile → (∀ x ∈ c :: t, 0 < x.size) →
      ∀ w ∈ t, c.region_id = w.region_id → c.addr + c.size ≤ w.addr := by
  intro t
  induction t with
  | nil =>
    intro c _ _ _ w hw
    simp at hw
  | cons d t2 ih =>
    intro c hP hC hpos w hw hreg
    rcases List.mem_cons.mp hw with rfl | hw2
    · exact Nat.le_of_eq ((List.chain'_cons.mp hC).1 hreg)
    · have hcd : regionLe c d := List.rel_of_pairwise_cons hP (by simp)
      have hdw : regionLe d w :=
        List.rel_of_pairwise_cons (List.Pairwise.of_cons hP) hw2
      have hcd2 : c.region_id ≤ d.region_id := hcd
      have hdw2 : d.region_id ≤ w.region_id := hdw
      have hdr : c.region_id = d.region_id := by omega
      have h1 := (List.chain'_cons.mp hC).1 hdr
      have h2 := ih d (List.Pairwise.of_cons hP) (List.chain'_cons.mp hC).2
        (fun x hx => hpos x (by simp [hx])) w hw2 (by omega)
      have h3 := hpos d (by simp)
      omega

theorem wfg_regionR {l : List MemBlock} (hP : l.Pairwise regionLe)
    (hC : l.Chain' adjTile) (hpos : ∀ x ∈ l, 0 < x.size) :
    l.Pairwise (fun x y : MemBlock =>
      x.region_id = y.region_id → x.addr + x.size ≤ y.addr) := by
  induction l with
  | nil => exact List.Pairwise.nil
  | cons c t ih =>
    rw [List.pairwise_cons]
    refine ⟨fun w hw hreg => wfg_regionR_head t c hP hC hpos w hw hreg, ?_⟩
    exact ih (List.Pairwise.of_cons hP) ((List.chain'_cons'.mp hC).2)
      (fun x hx => hpos x (by simp [hx]))

/-- Under WfG no two chain entries share an address: same-region blocks are
strictly ordered inside their run, and distinct regions are disjoint. -/
theorem wfg_ne {l : List MemBlock} (hwfg : WfG l) :
    l.Pairwise (fun x y : MemBlock => x.addr ≠ y.addr) := by
  obtain ⟨hG1, hG2, -, hG5, hG4⟩ := hwfg
  have hRR := wfg_regionR hG1 hG2 (fun x hx => (hG4 x hx).1)
  refine (hRR.and hG5).imp_of_mem ?_
  intro x y hx hy h
  by_cases hreg : x.region_id = y.region_id
  · have h1 := h.1 hreg
    have h2 := (hG4 x hx).1
    omega
  · rcases h.2 hreg with h2 | h2
    · have := (hG4 x hx).1
      omega
    · have := (hG4 y hy).1
      omega

theorem wfg_mem_decomp {l : List MemBlock} (hwfg : WfG l) {b : MemBlock}
    (hb : b ∈ l) :
    ∃ l1 l2, l = l1 ++ b :: l2 ∧ (∀ x ∈ l1, x.addr ≠ b.addr) ∧
      ∀ x ∈ l2, x.addr ≠ b.addr := by
  obtain ⟨l1, l2, rfl⟩ := List.append_of_mem hb
  have hm := pairwise_mid.mp (wfg_ne hwfg)
  refine ⟨l1, l2, rfl, fun x hx => hm.2.2.1 x hx, fun x hx => ?_⟩
  exact fun hcon => hm.2.2.2.1 x hx hcon.symm

/-- The no-free-adjacency property, for arbitrary (not only consecutive)
pairs, follows from the region-grouped invariant: an exact physical
neighbour in the same region must be the list neighbour. -/
theorem wfg_adj_pairwise {l : List MemBlock} (hG1 : l.Pairwise regionLe)
    (hG2 : l.Chain' adjTile) (hG3 : l.Chain' adjOk)
    (hpos : ∀ x ∈ l, 0 < x.size) :
    ∀ x ∈ l, ∀ y ∈ l, x.addr + x.size = y.addr → x.region_id = y.region_id →
      ¬(x.free = true ∧ y.free = true) := by
  induction l with
  | nil =>
    intro x hx
    simp at hx
  | cons c t ih =>
    intro x hx y hy hadj hreg
    rcases List.mem_cons.mp hx with rfl | hx2 <;>
      rcases List.mem_cons.mp hy with rfl | hy2
    · exact absurd hadj (by have := hpos _ hx; omega)
    · cases t with
      | nil => simp at hy2
      | cons d t2 =>
        rcases List.mem_cons.mp hy2 with rfl | hy3
        · exact (List.chain'_cons.mp hG3).1 hadj hreg
        · exfalso
          have hcd : regionLe x d := List.rel_of_pairwise_cons hG1 (by simp)
          have hdy : regionLe d y :=
            List.rel_of_pairwise_cons (List.Pairwise.of_cons hG1) hy3
          have hcd2 : x.region_id ≤ d.region_id := hcd
          have hdy2 : d.region_id ≤ y.region_id := hdy
          have hdr : x.region_id = d.region_id := by omega
          have h1 := (List.chain'_cons.mp hG2).1 hdr
          have h2 := wfg_regionR_head t2 d (List.Pairwise.of_cons hG1)
            (List.chain'_cons.mp hG2).2 (fun z hz => hpos z (by simp [hz]))
            y hy3 (by omega)
          have h3 := hpos d (by simp)
          omega
    · exfalso
      have h1 := wfg_regionR_head t y hG1 hG2 hpos x hx2 hreg.symm
      have h2 := hpos x (by simp [hx2])
      have h3 := hpos y (by simp)
      omega
    · exact ih (List.Pairwise.of_cons hG1) ((List.chain'_cons'.mp hG2).2)
        ((List.chain'_cons'.mp hG3).2) (fun z hz => hpos z (by simp [hz]))
        x hx2 y hy2 hadj hreg

/-- Changing the middle block without touching its address, size or region
preserves the non-adjacency components of WfG. -/
theorem wfg_core_mid (A C : List MemBlock) (b b2 : MemBlock)
    (ha : b2.addr = b.addr) (hs : b2.size = b.size)
    (hr : b2.region_id = b.region_id)
    (h1 : (A ++ b :: C).Pairwise regionLe)
    (h2 : (A ++ b :: C).Chain' adjTile)
    (h5 : (A ++ b :: C).Pairwise exDisj)
    (h4 : ∀ x ∈ A ++ b :: C, 0 < x.size ∧ x.addr + x.size < W64) :
    (A ++ b2 :: C).Pairwise regionLe ∧ (A ++ b2 :: C).Chain' adjTile ∧
      (A ++ b2 :: C).Pairwise exDisj ∧
      ∀ x ∈ A ++ b2 :: C, 0 < x.size ∧ x.addr + x.size < W64 := by
  have hm1 := pairwise_mid.mp h1
  have hm2 := chain'_mid_iff.mp h2
  have hm5 := pairwise_mid.mp h5
  have hm4 := forall_mem_mid_dest h4
  refine ⟨?_, ?_, ?_, ?_⟩
  · rw [pairwise_mid]
    refine ⟨hm1.1, hm1.2.1, ?_, ?_, hm1.2.2.2.2⟩
    · intro a hA
      show a.region_id ≤ b2.region_id
      rw [hr]
      exact hm1.2.2.1 a hA
    · intro c hc
      show b2.region_id ≤ c.region_id
      rw [hr]
      exact hm1.2.2.2.1 c hc
  · rw [chain'_mid_iff]
    refine ⟨hm2.1, hm2.2.1, ?_, ?_⟩
    · intro x hxl hregx
      show x.addr + x.size = b2.addr
      rw [ha]
      exact hm2.2.2.1 x hxl (by rw [← hr]; exact hregx)
    · intro y hyl hregy
      show b2.addr + b2.size = y.addr
      rw [ha, hs]
      exact hm2.2.2.2 y hyl (by rw [← hr]; exact hregy)
  · rw [pairwise_mid]
    refine ⟨hm5.1, hm5.2.1, ?_, ?_, hm5.2.2.2.2⟩
    · intro a hA hne
      show a.addr + a.size ≤ b2.addr ∨ b2.addr + b2.size ≤ a.addr
      rw [ha, hs]
      exact hm5.2.2.1 a hA (by rw [hr] at hne; exact hne)
    · intro c hc hne
      show b2.addr + b2.size ≤ c.addr ∨ c.addr + c.size ≤ b2.addr
      rw [ha, hs]
      exact hm5.2.2.2.1 c hc (by rw [hr] at hne; exact hne)
  · refine forall_mem_mid hm4.1 ?_ hm4.2.2
    constructor
    · rw [hs]
      exact hm4.2.1.1
    · rw [ha, hs]
      exact hm4.2.1.2

/-- Marking the middle block in use preserves WfG entirely: the adjacency
component only constrains pairs of free blocks. -/
theorem wfg_mark_mid (A C : List MemBlock) (b : MemBlock)
    (h : WfG (A ++ b :: C)) :
    WfG (A ++ ({ b with free := false } : MemBlock) :: C) := by
  obtain ⟨h1, h2, h3, h5, h4⟩ := h
  have hcore := wfg_core_mid A C b ({ b with free := false } : MemBlock)
    rfl rfl rfl h1 h2 h5 h4
  refine ⟨hcore.1, hcore.2.1, ?_, hcore.2.2.1, hcore.2.2.2⟩
  rw [chain'_mid_iff]
  have hm3 := chain'_mid_iff.mp h3
  refine ⟨hm3.1, hm3.2.1, ?_, ?_⟩
  · intro x hxl hadjx hregx hcon
    exact absurd hcon.2 (by simp)
  · intro y hyl hadjy hregy hcon
    exact absurd hcon.1 (by simp)

/-- Splitting a free block and marking the shrunk part in use preserves the
region-grouped invariant: both parts stay inside the parent extent and in
the parent region, and the residual inherits the parent adjacency facts. -/
theorem wfg_split_mark (l1 l2 : List MemBlock) (b nb : MemBlock) (n : Nat)
    (h : WfG (l1 ++ b :: l2)) (hbf : b.free = true) (hn : 0 < n)
    (hle : n ≤ b.size) (hnba : nb.addr = b.addr + n) (hnbs : nb.size = b.size - n)
    (hnbr : nb.region_id = b.region_id) (hnbf : nb.free = true)
    (hrm : 0 < b.size - n) :
    WfG (l1 ++ ({ b with size := n, free := false } : MemBlock) :: nb :: l2) := by
  obtain ⟨hG1, hG2, hG3, hG5, hG4⟩ := h
  have hm1 := pairwise_mid.mp hG1
  have hm2 := chain'_mid_iff.mp hG2
  have hm3 := chain'_mid_iff.mp hG3
  have hm5 := pairwise_mid.mp hG5
  have hm4 := forall_mem_mid_dest hG4
  have hbW : b.addr + b.size < W64 := hm4.2.1.2
  refine ⟨?_, ?_, ?_, ?_, ?_⟩
  · rw [pairwise_mid]
    refine ⟨hm1.1, ?_, ?_, ?_, ?_⟩
    · rw [List.pairwise_cons]
      refine ⟨?_, hm1.2.1⟩
      intro y hy
      show nb.region_id ≤ y.region_id
      rw [hnbr]
      exact hm1.2.2.2.1 y hy
    · intro a ha
      exact hm1.2.2.1 a ha
    · intro c hc
      rcases List.mem_cons.mp hc with rfl | hc2
      · show b.region_id ≤ c.region_id
        rw [hnbr]
      · exact hm1.2.2.2.1 c hc2
    · intro a ha c hc
      rcases List.mem_cons.mp hc with rfl | hc2
      · show a.region_id ≤ c.region_id
        rw [hnbr]
        exact hm1.2.2.1 a ha
      · exact hm1.2.2.2.2 a ha c hc2
  · rw [chain'_mid_iff]
    refine ⟨hm2.1, ?_, ?_, ?_⟩
    · rw [List.chain'_cons']
      refine ⟨?_, hm2.2.1⟩
      intro y hy hreg
      have hreg2 : b.region_id = y.region_id := by
        rw [← hnbr]
        exact hreg
      have h1 : b.addr + b.size = y.addr := hm2.2.2.2 y hy hreg2
      show nb.addr + nb.size = y.addr
      rw [hnba, hnbs]
      omega
    · intro x hx hreg
      exact hm2.2.2.1 x hx hreg
    · intro y hy
      have hyn : nb = y := by simpa using hy
      subst hyn
      intro _
      show b.addr + n = nb.addr
      omega
  · rw [chain'_mid_iff]
    refine ⟨hm3.1, ?_, ?_, ?_⟩
    · rw [List.chain'_cons']
      refine ⟨?_, hm3.2.1⟩
      intro y hy heq hreg hcon
      have heq2 : b.addr + b.size = y.addr := by
        rw [hnba, hnbs] at heq
        omega
      have hreg2 : b.region_id = y.region_id := by
        rw [← hnbr]
        exact hreg
      exact hm3.2.2.2 y hy heq2 hreg2 ⟨hbf, hcon.2⟩
    · intro x hx heq hreg hcon
      exact absurd hcon.2 (by simp)
    · intro y hy heq hreg hcon
      exact absurd hcon.1 (by simp)
  · rw [pairwise_mid]
    refine ⟨hm5.1, ?_, ?_, ?_, ?_⟩
    · rw [List.pairwise_cons]
      refine ⟨?_, hm5.2.1⟩
      intro y hy hne
      have hne2 : b.region_id ≠ y.region_id := by
        rw [← hnbr]
        exact hne
      rcases hm5.2.2.2.1 y hy hne2 with h1 | h1
      · left
        show nb.addr + nb.size ≤ y.addr
        rw [hnba, hnbs]
        omega
      · right
        show y.addr + y.size ≤ nb.addr
        rw [hnba]
        omega
    · intro a ha hne
      have hne2 : a.region_id ≠ b.region_id := hne
      rcases hm5.2.2.1 a ha hne2 with h1 | h1
      · left
        exact h1
      · right
        show ({ b with size := n, free := false } : MemBlock).addr +
          ({ b with size := n, free := false } : MemBlock).size ≤ a.addr
        show b.addr + n ≤ a.addr
        omega
    · intro c hc hne
      rcases List.mem_cons.mp hc with rfl | hc2
      · exact absurd hnbr.symm hne
      · rcases hm5.2.2.2.1 c hc2 hne with h1 | h1
        · left
          show b.addr + n ≤ c.addr
          omega
        · right
          exact h1
    · intro a ha c hc
      rcases List.mem_cons.mp hc with rfl | hc2
      · intro hne
        have hne2 : a.region_id ≠ b.region_id := by
          rw [← hnbr]
          exact hne
        rcases hm5.2.2.1 a ha hne2 with h1 | h1
        · left
          show a.addr + a.size ≤ c.addr
          rw [hnba]
          omega
        · right
          show c.addr + c.size ≤ a.addr
          rw [hnba, hnbs]
          omega
      · exact hm5.2.2.2.2 a ha c hc2
  · refine forall_mem_mid hm4.1 ?_ ?_
    · constructor
      · show 0 < n
        exact hn
      · show b.addr + n < W64
        omega
    · intro y hy
      rcases List.mem_cons.mp hy with rfl | hy2
      · constructor
        · show 0 < y.size
          rw [hnbs]
          exact hrm
        · show y.addr + y.size < W64
          rw [hnba, hnbs]
          omega
      · exact hm4.2.2 y hy2

theorem phase3_stale_wfg (mo : Bool) (st : AllocState) (l2 : List MemBlock)
    (b : MemBlock) (sp sn : Option MemBlock) (P : Nat → Prop)
    (hwfg : WfG l2) (hP : ∀ x ∈ l2, P x.region_id) :
    WfG (phase3_stale mo st l2 b sp sn).1.blocks ∧
      (∀ x ∈ (phase3_stale mo st l2 b sp sn).1.blocks, P x.region_id) ∧
      (phase3_stale mo st l2 b sp sn).1.g_regions = st.g_regions := by
  unfold phase3_stale
  split_ifs with h1 h2 h3 h4
  · exact ⟨⟨List.Pairwise.nil, List.chain'_nil, List.chain'_nil,
      List.Pairwise.nil, by simp⟩, by simp, rfl⟩
  · exact ⟨hwfg, hP, rfl⟩
  · exact ⟨hwfg, hP, rfl⟩
  · exact ⟨hwfg, hP, rfl⟩
  · exact ⟨hwfg, hP, rfl⟩

theorem phase3_inlist_wfg (mo : Bool) (st : AllocState)
    (pre_rev post1 : List MemBlock) (b1 : MemBlock) (P : Nat → Prop)
    (hG1 : (pre_rev.reverse ++ b1 :: post1).Pairwise regionLe)
    (hG2 : (pre_rev.reverse ++ b1 :: post1).Chain' adjTile)
    (hG5 : (pre_rev.reverse ++ b1 :: post1).Pairwise exDisj)
    (hsz : ∀ x ∈ pre_rev.reverse ++ b1 :: post1, 0 < x.size ∧ x.addr + x.size < W64)
    (hadjA : pre_rev.reverse.Chain' adjOk)
    (hadjC : post1.Chain' adjOk)
    (hprevOK : ∀ p ∈ pre_rev.head?, adjOk p b1)
    (hheadOK : ∀ c ∈ post1.head?, adjOk b1 c)
    (hP : ∀ x ∈ pre_rev.reverse ++ b1 :: post1, P x.region_id) :
    WfG (phase3_inlist mo st pre_rev b1 post1).1.blocks ∧
      (∀ x ∈ (phase3_inlist mo st pre_rev b1 post1).1.blocks, P x.region_id) ∧
      (phase3_inlist mo st pre_rev b1 post1).1.g_regions = st.g_regions := by
  have hm1 := pairwise_mid.mp hG1
  have hm2 := chain'_mid_iff.mp hG2
  have hm5 := pairwise_mid.mp hG5
  have hszd := forall_mem_mid_dest hsz
  have hPd := forall_mem_mid_dest hP
  have hkeep : WfG (pre_rev.reverse ++ b1 :: post1) := by
    refine ⟨hG1, hG2, ?_, hG5, hsz⟩
    rw [chain'_mid_iff]
    refine ⟨hadjA, hadjC, ?_, hheadOK⟩
    intro x hx
    rw [List.getLast?_reverse] at hx
    exact hprevOK x hx
  have hremP : ∀ x ∈ pre_rev.reverse ++ post1, P x.region_id := by
    intro x hx
    rcases List.mem_append.mp hx with hx | hx
    · exact hPd.1 x hx
    · exact hPd.2.2 x hx
  have hremsz : ∀ x ∈ pre_rev.reverse ++ post1, 0 < x.size ∧ x.addr + x.size < W64 := by
    intro x hx
    rcases List.mem_append.mp hx with hx | hx
    · exact hszd.1 x hx
    · exact hszd.2.2 x hx
  have hsub : (pre_rev.reverse ++ post1).Sublist
      (pre_rev.reverse ++ b1 :: post1) := by
    apply List.Sublist.append_left
    exact List.sublist_cons_self b1 post1
  have hrem2 : diffRegion b1 post1.head? = true →
      diffRegion b1 pre_rev.head? = true → WfG (pre_rev.reverse ++ post1) := by
    intro hdn hdp
    cases post1 with
    | nil => simp [diffRegion] at hdn
    | cons ch ct =>
      cases pre_rev with
      | nil => simp [diffRegion] at hdp
      | cons ph pt =>
        simp only [List.head?_cons, diffRegion, bne_iff_ne, ne_eq] at hdn hdp
        have hph : ph ∈ (ph :: pt).reverse := by simp
        have hle1 : ph.region_id ≤ b1.region_id := hm1.2.2.1 ph hph
        have hle2 : b1.region_id ≤ ch.region_id := hm1.2.2.2.1 ch (by simp)
        have hvac : ph.region_id = ch.region_id → False := by
          intro hreg
          exact hdp (by omega)
        refine ⟨hG1.sublist hsub, ?_, ?_, hG5.sublist hsub, hremsz⟩
        · rw [List.chain'_append]
          refine ⟨hm2.1, hm2.2.1, ?_⟩
          intro x hx y hy
          rw [List.getLast?_reverse] at hx
          have hx2 : ph = x := by simpa using hx
          have hy2 : ch = y := by simpa using hy
          subst hx2
          subst hy2
          intro hreg
          exact absurd hreg (fun hr => hvac hr)
        · rw [List.chain'_append]
          refine ⟨hadjA, hadjC, ?_⟩
          intro x hx y hy
          rw [List.getLast?_reverse] at hx
          have hx2 : ph = x := by simpa using hx
          have hy2 : ch = y := by simpa using hy
          subst hx2
          subst hy2
          intro _ hreg
          exact absurd hreg (fun hr => hvac hr)
  unfold phase3_inlist
  split_ifs with h1 h2 h3 h4
  · exact ⟨⟨List.Pairwise.nil, List.chain'_nil, List.chain'_nil,
      List.Pairwise.nil, by simp⟩, by simp, rfl⟩
  · simp only [Bool.and_eq_true] at h2
    exact ⟨hrem2 h2.1 h2.2, hremP, rfl⟩
  · simp only [Bool.and_eq_true] at h3
    have hpnil : post1 = [] := by
      have := h3.1.2
      simpa using this
    subst hpnil
    refine ⟨?_, hremP, rfl⟩
    rw [List.append_nil]
    exact ⟨(List.pairwise_append.mp hG1).1, hm2.1, hadjA,
      (List.pairwise_append.mp hG5).1, hszd.1⟩
  · simp only [Bool.and_eq_true] at h4
    have hpnil : pre_rev = [] := by
      have := h4.1.2
      simpa using this
    subst hpnil
    refine ⟨?_, hremP, rfl⟩
    have hG1c : (b1 :: post1).Pairwise regionLe := hG1
    have hG2c : (b1 :: post1).Chain' adjTile := hG2
    have hG5c : (b1 :: post1).Pairwise exDisj := hG5
    show WfG (([] : List MemBlock) ++ post1)
    rw [List.nil_append]
    exact ⟨hG1c.of_cons, (List.chain'_cons'.mp hG2c).2, hadjC,
      hG5c.of_cons, hszd.2.2⟩
  · exact ⟨hkeep, hP, rfl⟩

/-- Phase 2 absorption under the region-grouped invariant: a free
same-region previous block swallows the merged block; the enlarged block
covers exactly the two old extents (they tile), so grouping, tiling,
disjointness and the restored adjacency all carry over. -/
theorem absorb_left_wfg (A0 post1 : List MemBlock) (prev b1 : MemBlock)
    (hG1 : (A0 ++ prev :: b1 :: post1).Pairwise regionLe)
    (hG2 : (A0 ++ prev :: b1 :: post1).Chain' adjTile)
    (hG5 : (A0 ++ prev :: b1 :: post1).Pairwise exDisj)
    (hsz : ∀ x ∈ A0 ++ prev :: b1 :: post1, 0 < x.size ∧ x.addr + x.size < W64)
    (hadjA : (A0 ++ [prev]).Chain' adjOk)
    (hadjC : post1.Chain' adjOk)
    (hheadOK : ∀ c ∈ post1.head?, adjOk b1 c)
    (hpr : prev.region_id = b1.region_id)
    (hbf : b1.free = true) :
    WfG (A0 ++ ({ prev with size := prev.size + b1.size } : MemBlock) :: post1) := by
  have hm1 := pairwise_mid.mp hG1
  have hm2 := chain'_mid_iff.mp hG2
  have hm5 := pairwise_mid.mp hG5
  have hszd := forall_mem_mid_dest hsz
  have hpb : prev.addr + prev.size = b1.addr := hm2.2.2.2 b1 rfl hpr
  have hb1sz : 0 < b1.size ∧ b1.addr + b1.size < W64 := hszd.2.2 b1 (by simp)
  have haA := List.chain'_append.mp hadjA
  refine ⟨?_, ?_, ?_, ?_, ?_⟩
  · rw [pairwise_mid]
    refine ⟨hm1.1, hm1.2.1.of_cons, ?_, ?_, ?_⟩
    · intro a ha
      exact hm1.2.2.1 a ha
    · intro c hc
      exact hm1.2.2.2.1 c (List.mem_cons_of_mem b1 hc)
    · intro a ha c hc
      exact hm1.2.2.2.2 a ha c (List.mem_cons_of_mem b1 hc)
  · rw [chain'_mid_iff]
    refine ⟨hm2.1, (List.chain'_cons'.mp hm2.2.1).2, ?_, ?_⟩
    · intro x hx hreg
      exact hm2.2.2.1 x hx hreg
    · intro y hy hreg
      have hreg2 : b1.region_id = y.region_id := by
        rw [← hpr]
        exact hreg
      have h1 : b1.addr + b1.size = y.addr :=
        (List.chain'_cons'.mp hm2.2.1).1 y hy hreg2
      show prev.addr + (prev.size + b1.size) = y.addr
      omega
  · rw [chain'_mid_iff]
    refine ⟨haA.1, hadjC, ?_, ?_⟩
    · intro x hx heq hreg hcon
      have hpadj : adjOk x prev := haA.2.2 x hx prev rfl
      exact hpadj heq hreg ⟨hcon.1, hcon.2⟩
    · intro y hy heq hreg hcon
      have heq2 : prev.addr + (prev.size + b1.size) = y.addr := heq
      have h1 : b1.addr + b1.size = y.addr := by omega
      have hreg2 : b1.region_id = y.region_id := by
        rw [← hpr]
        exact hreg
      exact hheadOK y hy h1 hreg2 ⟨hbf, hcon.2⟩
  · rw [pairwise_mid]
    refine ⟨hm5.1, hm5.2.1.of_cons, ?_, ?_, ?_⟩
    · intro a ha hne
      have hasz := (hszd.1 a ha).1
      have hne1 : a.region_id ≠ prev.region_id := hne
      have hne2 : a.region_id ≠ b1.region_id := by
        rw [← hpr]
        exact hne1
      have hd1 := hm5.2.2.1 a ha hne1
      have hd2 := hm5.2.2.2.2 a ha b1 (by simp) hne2
      show a.addr + a.size ≤ prev.addr ∨
        prev.addr + (prev.size + b1.size) ≤ a.addr
      rcases hd1 with h | h
      · left
        exact h
      · rcases hd2 with h2 | h2
        · omega
        · right
          omega
    · intro c hc hne
      have hcsz := (hszd.2.2 c (List.mem_cons_of_mem b1 hc)).1
      have hne1 : prev.region_id ≠ c.region_id := hne
      have hne2 : b1.region_id ≠ c.region_id := by
        rw [← hpr]
        exact hne1
      have hd1 := hm5.2.2.2.1 c (List.mem_cons_of_mem b1 hc) hne1
      have hd2 := List.rel_of_pairwise_cons hm5.2.1 hc hne2
      show prev.addr + (prev.size + b1.size) ≤ c.addr ∨
        c.addr + c.size ≤ prev.addr
      rcases hd2 with h | h
      · left
        omega
      · rcases hd1 with h2 | h2
        · omega
        · right
          exact h2
    · intro a ha c hc
      exact hm5.2.2.2.2 a ha c (List.mem_cons_of_mem b1 hc)
  · refine forall_mem_mid hszd.1 ?_ ?_
    · have hp := hszd.2.1
      constructor
      · show 0 < prev.size + b1.size
        omega
      · show prev.addr + (prev.size + b1.size) < W64
        omega
    · intro y hy
      exact hszd.2.2 y (List.mem_cons_of_mem b1 hy)

/-- Phase 1 absorption under the region-grouped invariant: the merged block
swallows its free same-region next neighbour, and all the invariant
components plus the restored head-adjacency fact carry over to the list
with the enlarged block. -/
theorem absorb_right_wfg (A post2 : List MemBlock) (b nxt : MemBlock)
    (hG1 : (A ++ b :: nxt :: post2).Pairwise regionLe)
    (hG2 : (A ++ b :: nxt :: post2).Chain' adjTile)
    (hG5 : (A ++ b :: nxt :: post2).Pairwise exDisj)
    (hsz : ∀ x ∈ A ++ b :: nxt :: post2, 0 < x.size ∧ x.addr + x.size < W64)
    (hadjC : (nxt :: post2).Chain' adjOk)
    (hnf : nxt.free = true) (hnr : nxt.region_id = b.region_id) :
    (A ++ ({ b with size := b.size + nxt.size } : MemBlock) :: post2).Pairwise regionLe ∧
    (A ++ ({ b with size := b.size + nxt.size } : MemBlock) :: post2).Chain' adjTile ∧
    (A ++ ({ b with size := b.size + nxt.size } : MemBlock) :: post2).Pairwise exDisj ∧
    (∀ x ∈ A ++ ({ b with size := b.size + nxt.size } : MemBlock) :: post2,
      0 < x.size ∧ x.addr + x.size < W64) ∧
    ∀ c ∈ post2.head?, adjOk ({ b with size := b.size + nxt.size } : MemBlock) c := by
  have hm1 := pairwise_mid.mp hG1
  have hm2 := chain'_mid_iff.mp hG2
  have hm5 := pairwise_mid.mp hG5
  have hszd := forall_mem_mid_dest hsz
  have htile : b.addr + b.size = nxt.addr := hm2.2.2.2 nxt rfl hnr.symm
  have hnsz : 0 < nxt.size ∧ nxt.addr + nxt.size < W64 := hszd.2.2 nxt (by simp)
  refine ⟨?_, ?_, ?_, ?_, ?_⟩
  · rw [pairwise_mid]
    refine ⟨hm1.1, hm1.2.1.of_cons, ?_, ?_, ?_⟩
    · intro a ha
      exact hm1.2.2.1 a ha
    · intro c hc
      exact hm1.2.2.2.1 c (List.mem_cons_of_mem nxt hc)
    · intro a ha c hc
      exact hm1.2.2.2.2 a ha c (List.mem_cons_of_mem nxt hc)
  · rw [chain'_mid_iff]
    refine ⟨hm2.1, (List.chain'_cons'.mp hm2.2.1).2, ?_, ?_⟩
    · intro x hx hreg
      exact hm2.2.2.1 x hx hreg
    · intro y hy hreg
      have hreg2 : nxt.region_id = y.region_id := by
        rw [hnr]
        exact hreg
      have h1 : nxt.addr + nxt.size = y.addr :=
        (List.chain'_cons'.mp hm2.2.1).1 y hy hreg2
      show b.addr + (b.size + nxt.size) = y.addr
      omega
  · rw [pairwise_mid]
    refine ⟨hm5.1, hm5.2.1.of_cons, ?_, ?_, ?_⟩
    · intro a ha hne
      have hasz := (hszd.1 a ha).1
      have hne1 : a.region_id ≠ b.region_id := hne
      have hne2 : a.region_id ≠ nxt.region_id := by
        rw [hnr]
        exact hne1
      have hd1 := hm5.2.2.1 a ha hne1
      have hd2 := hm5.2.2.2.2 a ha nxt (by simp) hne2
      show a.addr + a.size ≤ b.addr ∨ b.addr + (b.size + nxt.size) ≤ a.addr
      rcases hd1 with h | h
      · left
        exact h
      · rcases hd2 with h2 | h2
        · omega
        · right
          omega
    · intro c hc hne
      have hcsz := (hszd.2.2 c (List.mem_cons_of_mem nxt hc)).1
      have hne1 : b.region_id ≠ c.region_id := hne
      have hne2 : nxt.region_id ≠ c.region_id := by
        rw [hnr]
        exact hne1
      have hd1 := hm5.2.2.2.1 c (List.mem_cons_of_mem nxt hc) hne1
      have hd2 := List.rel_of_pairwise_cons hm5.2.1 hc hne2
      show b.addr + (b.size + nxt.size) ≤ c.addr ∨ c.addr + c.size ≤ b.addr
      rcases hd2 with h | h
      · left
        omega
      · rcases hd1 with h2 | h2
        · omega
        · right
          exact h2
    · intro a ha c hc
      exact hm5.2.2.2.2 a ha c (List.mem_cons_of_mem nxt hc)
  · refine forall_mem_mid hszd.1 ?_ ?_
    · have hb := hszd.2.1
      constructor
      · show 0 < b.size + nxt.size
        omega
      · show b.addr + (b.size + nxt.size) < W64
        omega
    · intro y hy
      exact hszd.2.2 y (List.mem_cons_of_mem nxt hy)
  · intro c hc heq hreg hcon
    have heq2 : b.addr + (b.size + nxt.size) = c.addr := heq
    have h1 : nxt.addr + nxt.size = c.addr := by omega
    have hreg2 : nxt.region_id = c.region_id := by
      rw [hnr]
      exact hreg
    exact (List.chain'_cons'.mp hadjC).1 c hc h1 hreg2 ⟨hnf, hcon.2⟩

theorem merge_phase2_wfg (mo : Bool) (st : AllocState)
    (pre_rev post1 : List MemBlock) (b1 : MemBlock) (P : Nat → Prop)
    (hG1 : (pre_rev.reverse ++ b1 :: post1).Pairwise regionLe)
    (hG2 : (pre_rev.reverse ++ b1 :: post1).Chain' adjTile)
    (hG5 : (pre_rev.reverse ++ b1 :: post1).Pairwise exDisj)
    (hsz : ∀ x ∈ pre_rev.reverse ++ b1 :: post1, 0 < x.size ∧ x.addr + x.size < W64)
    (hadjA : pre_rev.reverse.Chain' adjOk)
    (hadjC : post1.Chain' adjOk)
    (hheadOK : ∀ c ∈ post1.head?, adjOk b1 c)
    (hbf : b1.free = true)
    (hP : ∀ x ∈ pre_rev.reverse ++ b1 :: post1, P x.region_id) :
    WfG (merge_phase2 mo st pre_rev b1 post1).1.blocks ∧
      (∀ x ∈ (merge_phase2 mo st pre_rev b1 post1).1.blocks, P x.region_id) ∧
      (merge_phase2 mo st pre_rev b1 post1).1.g_regions = st.g_regions := by
  cases hpr : pre_rev with
  | nil =>
    rw [hpr] at hG1 hG2 hG5 hsz hadjA hP
    simp only [merge_phase2]
    exact phase3_inlist_wfg mo st [] post1 b1 P hG1 hG2 hG5 hsz hadjA hadjC
      (by intro p hp; simp at hp) hheadOK hP
  | cons prev pret =>
    rw [hpr] at hG1 hG2 hG5 hsz hadjA hP
    have hrw : ∀ X : List MemBlock,
        (prev :: pret).reverse ++ X = pret.reverse ++ prev :: X := by
      intro X
      simp
    rw [hrw] at hG1 hG2 hG5 hsz hP
    rw [List.reverse_cons] at hadjA
    simp only [merge_phase2]
    by_cases hcond : (prev.free && (prev.region_id == b1.region_id)) = true
    · rw [if_pos hcond]
      simp only [Bool.and_eq_true, beq_iff_eq] at hcond
      have habs := absorb_left_wfg pret.reverse post1 prev b1 hG1 hG2 hG5 hsz
        hadjA hadjC hheadOK hcond.2 hbf
      have hPout : ∀ x ∈ pret.reverse ++
          ({ prev with size := prev.size + b1.size } : MemBlock) :: post1,
          P x.region_id := by
        refine forall_mem_mid (fun x hx => hP x (by simp [hx])) ?_
          (fun x hx => hP x (by simp [hx]))
        exact hP prev (by simp)
      cases hps : post1 with
      | nil =>
        rw [hps] at habs hPout
        exact phase3_stale_wfg mo st _ b1 none none P habs hPout
      | cons nxt rest =>
        rw [hps] at habs hPout
        exact phase3_stale_wfg mo st _ b1 (some prev) (some nxt) P habs hPout
    · rw [if_neg hcond]
      have hprevOK : ∀ p ∈ (prev :: pret).head?, adjOk p b1 := by
        intro p hp heq hreg hff
        have hpp : prev = p := by simpa using hp
        apply hcond
        rw [hpp, hff.1, hreg]
        simp
      exact phase3_inlist_wfg mo st (prev :: pret) post1 b1 P
        (by rw [hrw]; exact hG1) (by rw [hrw]; exact hG2)
        (by rw [hrw]; exact hG5) (by rw [hrw]; exact hsz)
        (by rw [List.reverse_cons]; exact hadjA) hadjC hprevOK hheadOK
        (by rw [hrw]; exact hP)

theorem merge_ctx_wfg (mo : Bool) (st : AllocState)
    (pre_rev post : List MemBlock) (b : MemBlock) (P : Nat → Prop)
    (hG1 : (pre_rev.reverse ++ b :: post).Pairwise regionLe)
    (hG2 : (pre_rev.reverse ++ b :: post).Chain' adjTile)
    (hG5 : (pre_rev.reverse ++ b :: post).Pairwise exDisj)
    (hsz : ∀ x ∈ pre_rev.reverse ++ b :: post, 0 < x.size ∧ x.addr + x.size < W64)
    (hadjA : pre_rev.reverse.Chain' adjOk)
    (hadjC : post.Chain' adjOk)
    (hbf : b.free = true)
    (hP : ∀ x ∈ pre_rev.reverse ++ b :: post, P x.region_id) :
    WfG (merge_ctx mo st pre_rev b post).1.blocks ∧
      (∀ x ∈ (merge_ctx mo st pre_rev b post).1.blocks, P x.region_id) ∧
      (merge_ctx mo st pre_rev b post).1.g_regions = st.g_regions := by
  cases hps : post with
  | nil =>
    rw [hps] at hG1 hG2 hG5 hsz hadjC hP
    simp only [merge_ctx]
    exact merge_phase2_wfg mo st pre_rev [] b P hG1 hG2 hG5 hsz hadjA hadjC
      (by intro c hc; simp at hc) hbf hP
  | cons nxt post2 =>
    rw [hps] at hG1 hG2 hG5 hsz hadjC hP
    simp only [merge_ctx]
    by_cases habs : (nxt.free && (nxt.region_id == b.region_id)) = true
    · rw [if_pos habs]
      simp only [Bool.and_eq_true, beq_iff_eq] at habs
      have hR := absorb_right_wfg pre_rev.reverse post2 b nxt hG1 hG2 hG5 hsz
        hadjC habs.1 habs.2
      have hP2 : ∀ x ∈ pre_rev.reverse ++
          ({ b with size := b.size + nxt.size } : MemBlock) :: post2,
          P x.region_id := by
        refine forall_mem_mid (fun x hx => hP x (by simp [hx])) ?_
          (fun x hx => hP x (by simp [hx]))
        exact hP b (by simp)
      exact merge_phase2_wfg mo st pre_rev post2
        ({ b with size := b.size + nxt.size } : MemBlock) P hR.1 hR.2.1 hR.2.2.1
        hR.2.2.2.1 hadjA ((List.chain'_cons'.mp hadjC).2) hR.2.2.2.2 hbf hP2
    · rw [if_neg habs]
      have hheadOK : ∀ c ∈ (nxt :: post2).head?, adjOk b c := by
        intro c hc heq hreg hff
        have hcc : nxt = c := by simpa using hc
        apply habs
        rw [hcc, hff.2, hreg.symm]
        simp
      exact merge_phase2_wfg mo st pre_rev (nxt :: post2) b P hG1 hG2 hG5 hsz
        hadjA hadjC hheadOK hbf hP

/-- free preserves the region-grouped invariant, for any pointer and any
munmap outcome. -/
theorem free_sane (mo : Bool) (st : AllocState) (p : Nat) (hwf : WfSane st) :
    WfSane (free mo st p) := by
  simp only [free]
  cases hs : seek [] st.blocks (p - HEADER_SIZE) with
  | none => exact hwf
  | some trip =>
    obtain ⟨pre, b, post⟩ := trip
    obtain ⟨hl, hba, hne⟩ := seek_nil_spec hs
    obtain ⟨⟨hG1, hG2, hG3, hG5, hG4⟩, hregb⟩ := hwf
    rw [hl] at hG1 hG2 hG3 hG5 hG4 hregb
    have hcore := wfg_core_mid pre.reverse post b
      ({ b with free := true } : MemBlock) rfl rfl rfl hG1 hG2 hG5 hG4
    have hm3 := chain'_mid_iff.mp hG3
    have hregd := forall_mem_mid_dest hregb
    have hres := merge_ctx_wfg mo
      { st with blocks := pre.reverse ++ ({ b with free := true } : MemBlock) :: post }
      pre post ({ b with free := true } : MemBlock) (fun r => r < st.g_regions)
      hcore.1 hcore.2.1 hcore.2.2.1 hcore.2.2.2 hm3.1 hm3.2.1 rfl
      (forall_mem_mid hregd.1 hregd.2.1 hregd.2.2)
    refine ⟨hres.1, ?_⟩
    intro x hx
    rw [hres.2.2]
    exact hres.2.1 x hx

/-- malloc preserves the region-grouped invariant: a fresh region only has
to be mapped disjoint from the tracked blocks and inside the address
space — it may land below, between or above them. -/
theorem malloc_sane (cfg : Config) (mmapAddr : Option Nat)
    (st : AllocState) (size : Nat) (hwf : WfSane st) (hsz : size + 8300 ≤ W64)
    (hmm : ∀ a, mmapAddr = some a →
      (∀ x ∈ st.blocks, x.addr + x.size ≤ a ∨
        a + regionSizeOf (mallocAligned size) ≤ x.addr) ∧
      a + regionSizeOf (mallocAligned size) < W64) :
    WfSane (malloc cfg mmapAddr st size).state := by
  obtain ⟨hal1, hal2⟩ := mallocAligned_spec size hsz
  have h104 : ¬ mallocAligned size < HEADER_SIZE + BLOCK_ALIGN := by
    unfold HEADER_SIZE BLOCK_ALIGN
    omega
  cases hf : runFit cfg.strategy st.blocks (mallocAligned size) with
  | some bfit =>
    obtain ⟨hmem, hsizele, hfree⟩ := runFit_spec _ _ _ _ hf
    obtain ⟨hwfg, hregb⟩ := hwf
    obtain ⟨l1, l2, hdec, hne1, hne2⟩ := wfg_mem_decomp hwfg hmem
    have hbfitW : bfit.size < W64 := by
      have h1 := (hwfg.2.2.2.2 bfit hmem).2
      omega
    have hsub : sub64 bfit.size (mallocAligned size) =
        bfit.size - mallocAligned size := sub64_eq_sub _ _ hsizele hbfitW
    have hreu2 : (reuse cfg.strategy st (mallocAligned size)).2 = some bfit.addr := by
      unfold reuse
      rw [hf]
    have hreu1 : (reuse cfg.strategy st (mallocAligned size)).1 =
        (split_block st bfit.addr (mallocAligned size)).1 := by
      unfold reuse
      rw [hf]
    simp only [malloc, hreu2, hreu1]
    by_cases hrm : bfit.size - mallocAligned size < 104
    · have hrm2 : sub64 bfit.size (mallocAligned size) < 104 := by
        rw [hsub]
        exact hrm
      have hnone := split_block_rm_none st l1 l2 bfit (mallocAligned size) hdec hne1 hrm2
      have hst := split_block_none_state st bfit.addr (mallocAligned size) hnone
      rw [hst]
      have hmap : st.blocks.map
          (fun b => if b.addr = bfit.addr then { b with free := false } else b) =
          l1 ++ ({ bfit with free := false } : MemBlock) :: l2 := by
        rw [hdec]
        exact markUsed_decomp l1 l2 bfit bfit.addr rfl hne1 hne2
      constructor
      · show WfG (st.blocks.map
          (fun b => if b.addr = bfit.addr then { b with free := false } else b))
        rw [hmap]
        apply wfg_mark_mid
        rw [← hdec]
        exact hwfg
      · intro x hx
        show x.region_id < st.g_regions
        have hx2 : x ∈ l1 ++ ({ bfit with free := false } : MemBlock) :: l2 := by
          rw [← hmap]
          exact hx
        rw [hdec] at hregb
        have hd := forall_mem_mid_dest hregb
        exact forall_mem_mid (b := ({ bfit with free := false } : MemBlock))
          hd.1 hd.2.1 hd.2.2 x hx2
    · have hrm2 : ¬ sub64 bfit.size (mallocAligned size) < 104 := by
        rw [hsub]
        exact hrm
      have hrun := split_block_run st l1 l2 bfit (mallocAligned size) hdec hne1
        h104 hfree hrm2
      rw [hrun]
      have hmap := markUsed_decomp l1
        (({ addr := bfit.addr + mallocAligned size,
            name := "Split block " ++ toString st.g_splits,
            size := sub64 bfit.size (mallocAligned size), free := true,
            region_id := bfit.region_id } : MemBlock) :: l2)
        ({ bfit with size := mallocAligned size } : MemBlock) bfit.addr rfl hne1
        (by
          intro x hx
          rcases List.mem_cons.mp hx with rfl | hx
          · show bfit.addr + mallocAligned size ≠ bfit.addr
            omega
          · exact hne2 x hx)
      constructor
      · show WfG ((l1 ++ ({ bfit with size := mallocAligned size } : MemBlock) ::
            ({ addr := bfit.addr + mallocAligned size,
               name := "Split block " ++ toString st.g_splits,
               size := sub64 bfit.size (mallocAligned size), free := true,
               region_id := bfit.region_id } : MemBlock) :: l2).map
          (fun b => if b.addr = bfit.addr then { b with free := false } else b))
        rw [hmap]
        have hres := wfg_split_mark l1 l2 bfit
          ({ addr := bfit.addr + mallocAligned size,
             name := "Split block " ++ toString st.g_splits,
             size := sub64 bfit.size (mallocAligned size), free := true,
             region_id := bfit.region_id } : MemBlock) (mallocAligned size)
          (by rw [← hdec]; exact hwfg) hfree (by omega) hsizele rfl hsub rfl rfl
          (by omega)
        exact hres
      · intro x hx
        show x.region_id < st.g_regions
        have hx2 : x ∈ l1 ++
            ({ { bfit with size := mallocAligned size } with free := false } : MemBlock) ::
            ({ addr := bfit.addr + mallocAligned size,
               name := "Split block " ++ toString st.g_splits,
               size := sub64 bfit.size (mallocAligned size), free := true,
               region_id := bfit.region_id } : MemBlock) :: l2 := by
          rw [← hmap]
          exact hx
        rw [hdec] at hregb
        have hd := forall_mem_mid_dest hregb
        rcases List.mem_append.mp hx2 with hx3 | hx3
        · exact hd.1 x hx3
        · rcases List.mem_cons.mp hx3 with rfl | hx3
          · exact hd.2.1
          · rcases List.mem_cons.mp hx3 with rfl | hx3
            · exact hd.2.1
            · exact hd.2.2 x hx3
  | none =>
    have hreu2 : (reuse cfg.strategy st (mallocAligned size)).2 = none := by
      unfold reuse
      rw [hf]
    cases hmA : mmapAddr with
    | none =>
      simp only [malloc, hreu2]
      exact hwf
    | some a =>
      simp only [malloc, hreu2]
      obtain ⟨hdisj, haW⟩ := hmm a hmA
      obtain ⟨hrs1, hrs2, hrs3⟩ := regionSizeOf_spec (mallocAligned size) hal1 (by omega)
      obtain ⟨hwfg, hregb⟩ := hwf
      obtain ⟨hG1, hG2, hG3, hG5, hG4⟩ := hwfg
      have hane : ∀ x ∈ st.blocks, x.addr ≠ a := by
        intro x hx
        have h1 := (hG4 x hx).1
        rcases hdisj x hx with h2 | h2
        · omega
        · omega
      have hsub : sub64 (regionSizeOf (mallocAligned size)) (mallocAligned size) =
          regionSizeOf (mallocAligned size) - mallocAligned size :=
        sub64_eq_sub _ _ hrs1 hrs3
      have hwfg1 : WfG (st.blocks ++
          ({ addr := a, name := "Allocation " ++ toString st.g_allocations,
             size := regionSizeOf (mallocAligned size), free := true,
             region_id := st.g_regions } : MemBlock) :: []) := by
        refine ⟨?_, ?_, ?_, ?_, ?_⟩
        · rw [pairwise_mid]
          refine ⟨hG1, List.Pairwise.nil, ?_, by simp, by simp⟩
          intro x hx
          show x.region_id ≤ st.g_regions
          exact Nat.le_of_lt (hregb x hx)
        · rw [chain'_mid_iff]
          refine ⟨hG2, List.chain'_nil, ?_, by simp⟩
          intro x hx hreg
          exfalso
          have hxm : x ∈ st.blocks := List.mem_of_getLast?_eq_some hx
          have h1 := hregb x hxm
          change x.region_id = st.g_regions at hreg
          omega
        · rw [chain'_mid_iff]
          refine ⟨hG3, List.chain'_nil, ?_, by simp⟩
          intro x hx heq hreg
          exfalso
          have hxm : x ∈ st.blocks := List.mem_of_getLast?_eq_some hx
          have h1 := hregb x hxm
          change x.region_id = st.g_regions at hreg
          omega
        · rw [pairwise_mid]
          refine ⟨hG5, List.Pairwise.nil, ?_, by simp, by simp⟩
          intro x hx hne
          show x.addr + x.size ≤ a ∨ a + regionSizeOf (mallocAligned size) ≤ x.addr
          exact hdisj x hx
        · refine forall_mem_mid hG4 ?_ (by simp)
          constructor
          · show 0 < regionSizeOf (mallocAligned size)
            omega
          · show a + regionSizeOf (mallocAligned size) < W64
            exact haW
      by_cases hrm : regionSizeOf (mallocAligned size) - mallocAligned size < 104
      · have hrm2 : sub64 (regionSizeOf (mallocAligned size)) (mallocAligned size) < 104 := by
          rw [hsub]
          exact hrm
        have hnone : (split_block
            { st with
              blocks := st.blocks ++
                [{ addr := a, name := "Allocation " ++ toString st.g_allocations,
                   size := regionSizeOf (mallocAligned size), free := true,
                   region_id := st.g_regions }],
              mapped := st.mapped ++ [(a, regionSizeOf (mallocAligned size))],
              g_allocations := st.g_allocations + 1,
              g_regions := st.g_regions + 1 }
            a (mallocAligned size)).2 = none :=
          split_block_rm_none _ st.blocks []
            ({ addr := a, name := "Allocation " ++ toString st.g_allocations,
               size := regionSizeOf (mallocAligned size), free := true,
               region_id := st.g_regions } : MemBlock) (mallocAligned size) rfl hane hrm2
        have hst := split_block_none_state _ a (mallocAligned size) hnone
        rw [hst]
        have hmap := markUsed_decomp st.blocks []
          ({ addr := a, name := "Allocation " ++ toString st.g_allocations,
             size := regionSizeOf (mallocAligned size), free := true,
             region_id := st.g_regions } : MemBlock) a rfl hane (by simp)
        constructor
        · show WfG ((st.blocks ++
              ({ addr := a, name := "Allocation " ++ toString st.g_allocations,
                 size := regionSizeOf (mallocAligned size), free := true,
                 region_id := st.g_regions } : MemBlock) :: []).map
            (fun b => if b.addr = a then { b with free := false } else b))
          rw [hmap]
          exact wfg_mark_mid st.blocks [] _ hwfg1
        · intro x hx
          show x.region_id < st.g_regions + 1
          have hx2 : x ∈ st.blocks ++
              ({ ({ addr := a, name := "Allocation " ++ toString st.g_allocations,
                    size := regionSizeOf (mallocAligned size), free := true,
                    region_id := st.g_regions } : MemBlock) with free := false } : MemBlock) :: [] := by
            rw [← hmap]
            exact hx
          rcases List.mem_append.mp hx2 with hx3 | hx3
          · have := hregb x hx3
            omega
          · rcases List.mem_cons.mp hx3 with rfl | hx3
            · show st.g_regions < st.g_regions + 1
              omega
            · simp at hx3
      · have hrm2 : ¬ sub64 (regionSizeOf (mallocAligned size)) (mallocAligned size) < 104 := by
          rw [hsub]
          exact hrm
        have hrun : (split_block
            { st with
              blocks := st.blocks ++
                [{ addr := a, name := "Allocation " ++ toString st.g_allocations,
                   size := regionSizeOf (mallocAligned size), free := true,
                   region_id := st.g_regions }],
              mapped := st.mapped ++ [(a, regionSizeOf (mallocAligned size))],
              g_allocations := st.g_allocations + 1,
              g_regions := st.g_regions + 1 }
            a (mallocAligned size)).1 = { st with
              blocks := st.blocks ++
                ({ ({ addr := a, name := "Allocation " ++ toString st.g_allocations,
                      size := regionSizeOf (mallocAligned size), free := true,
                      region_id := st.g_regions } : MemBlock) with size := mallocAligned size } : MemBlock) ::
                ({ addr := a + mallocAligned size,
                   name := "Split block " ++ toString st.g_splits,
                   size := sub64 (regionSizeOf (mallocAligned size)) (mallocAligned size),
                   free := true, region_id := st.g_regions } : MemBlock) :: [],
              mapped := st.mapped ++ [(a, regionSizeOf (mallocAligned size))],
              g_allocations := st.g_allocations + 1,
              g_regions := st.g_regions + 1,
              g_splits := st.g_splits + 1 } :=
          split_block_run _ st.blocks []
            ({ addr := a, name := "Allocation " ++ toString st.g_allocations,
               size := regionSizeOf (mallocAligned size), free := true,
               region_id := st.g_regions } : MemBlock) (mallocAligned size) rfl hane
            h104 rfl hrm2
        rw [hrun]
        have hmap := markUsed_decomp st.blocks
          (({ addr := a + mallocAligned size,
              name := "Split block " ++ toString st.g_splits,
              size := sub64 (regionSizeOf (mallocAligned size)) (mallocAligned size),
              free := true, region_id := st.g_regions } : MemBlock) :: [])
          ({ ({ addr := a, name := "Allocation " ++ toString st.g_allocations,
                size := regionSizeOf (mallocAligned size), free := true,
                region_id := st.g_regions } : MemBlock) with size := mallocAligned size } : MemBlock)
          a rfl hane
          (by
            intro x hx
            rcases List.mem_cons.mp hx with rfl | hx
            · show a + mallocAligned size ≠ a
              omega
            · simp at hx)
        constructor
        · show WfG ((st.blocks ++
              ({ ({ addr := a, name := "Allocation " ++ toString st.g_allocations,
                    size := regionSizeOf (mallocAligned size), free := true,
                    region_id := st.g_regions } : MemBlock) with size := mallocAligned size } : MemBlock) ::
              ({ addr := a + mallocAligned size,
                 name := "Split block " ++ toString st.g_splits,
                 size := sub64 (regionSizeOf (mallocAligned size)) (mallocAligned size),
                 free := true, region_id := st.g_regions } : MemBlock) :: []).map
            (fun b => if b.addr = a then { b with free := false } else b))
          rw [hmap]
          have hres := wfg_split_mark st.blocks []
            ({ addr := a, name := "Allocation " ++ toString st.g_allocations,
               size := regionSizeOf (mallocAligned size), free := true,
               region_id := st.g_regions } : MemBlock)
            ({ addr := a + mallocAligned size,
               name := "Split block " ++ toString st.g_splits,
               size := sub64 (regionSizeOf (mallocAligned size)) (mallocAligned size),
               free := true, region_id := st.g_regions } : MemBlock) (mallocAligned size)
            hwfg1 rfl (by omega) hrs1 rfl hsub rfl rfl
            (by show 0 < regionSizeOf (mallocAligned size) - mallocAligned size; omega)
          exact hres
        · intro x hx
          show x.region_id < st.g_regions + 1
          have hx2 : x ∈ st.blocks ++
              ({ ({ ({ addr := a, name := "Allocation " ++ toString st.g_allocations,
                       size := regionSizeOf (mallocAligned size), free := true,
                       region_id := st.g_regions } : MemBlock) with size := mallocAligned size } : MemBlock) with
                 free := false } : MemBlock) ::
              ({ addr := a + mallocAligned size,
                 name := "Split block " ++ toString st.g_splits,
                 size := sub64 (regionSizeOf (mallocAligned size)) (mallocAligned size),
                 free := true, region_id := st.g_regions } : MemBlock) :: [] := by
            rw [← hmap]
            exact hx
          rcases List.mem_append.mp hx2 with hx3 | hx3
          · have := hregb x hx3
            omega
          · rcases List.mem_cons.mp hx3 with rfl | hx3
            · show st.g_regions < st.g_regions + 1
              omega
            · rcases List.mem_cons.mp hx3 with rfl | hx3
              · show st.g_regions < st.g_regions + 1
                omega
              · simp at hx3

theorem step_sane_preserves (st : AllocState) (op : Op) (hwf : WfSane st)
    (hok : stepSane st op = true) : WfSane (step st op) := by
  cases op with
  | alloc cfg a size =>
    simp only [stepSane, Bool.and_eq_true, decide_eq_true_eq] at hok
    apply malloc_sane cfg a st size hwf hok.1
    intro a2 ha2
    rw [ha2] at hok
    have h2 := hok.2
    simp only [Bool.and_eq_true, decide_eq_true_eq, List.all_eq_true,
      Bool.or_eq_true] at h2
    refine ⟨fun x hx => ?_, h2.2⟩
    have h3 := h2.1 x hx
    simpa using h3
  | rel mo p =>
    cases p with
    | none => exact hwf
    | some p => exact free_sane mo st p hwf

theorem run_sane_preserves (ops : List Op) :
    ∀ st : AllocState, WfSane st → runSane st ops = true → WfSane (run st ops) := by
  induction ops with
  | nil =>
    intro st h _
    exact h
  | cons op ops ih =>
    intro st hwf hok
    unfold runSane at hok
    simp only [Bool.and_eq_true] at hok
    show WfSane (run (step st op) ops)
    exact ih (step st op) (step_sane_preserves st op hwf hok.1) hok.2

/-- Claim C2 (confirmed): for every sequence of allocate and release
operations from the empty initial state, no two address-adjacent blocks
sharing a region are both free at any observation point.  Only mmap honesty
is assumed (each fresh region maps disjoint from the tracked blocks and
inside the address space, sizes within size_t); no ordering between the
regions is required, so descending-mmap runs are covered. -/
theorem C2_no_free_adjacency (ops : List Op) (h : runSane initState ops = true) :
    ∀ x ∈ (run initState ops).blocks, ∀ y ∈ (run initState ops).blocks,
      x.addr + x.size = y.addr → x.region_id = y.region_id →
        ¬(x.free = true ∧ y.free = true) := by
  have hwf : WfSane (run initState ops) :=
    run_sane_preserves ops initState
      ⟨⟨List.Pairwise.nil, List.chain'_nil, List.chain'_nil,
        List.Pairwise.nil, fun x hx => absurd hx (List.not_mem_nil x)⟩,
       fun x hx => absurd hx (List.not_mem_nil x)⟩ h
  obtain ⟨⟨hG1, hG2, hG3, -, hG4⟩, -⟩ := hwf
  exact wfg_adj_pairwise hG1 hG2 hG3 (fun x hx => (hG4 x hx).1)

theorem C2_no_free_adjacency_witness :
    runSane initState c2Ops = true ∧
    (∀ x ∈ (run initState c2Ops).blocks, ∀ y ∈ (run initState c2Ops).blocks,
      x.addr + x.size = y.addr → x.region_id = y.region_id →
        ¬(x.free = true ∧ y.free = true)) :=
  ⟨by decide, C2_no_free_adjacency c2Ops (by decide)⟩

end CustomAllocator
